import Mathlib

/-!
# Goldcoin proof-of-work core (`src/pow.cpp`)

A shallow embedding of `GetNextWorkRequired`, `GoldenRiver`,
`CalculateNextWorkRequired` and `CheckProofOfWork`, together with the parts of
`arith_uint256`, `CBlockIndex` and `Consensus::Params` they rely on.

Conventions.
* `uint256` / `arith_uint256` values are natural numbers below `2 ^ 256`; every
  operation that can leave that range reduces modulo `2 ^ 256`.
* `uint32_t` compact targets are natural numbers, reduced modulo `2 ^ 32` where
  they are decoded.
* `int` / `int64_t` values are mathematical integers.  Signed overflow is
  undefined behaviour in C++, so the embedding describes the executions without
  signed overflow.  Signed `/` and `%` are `Int.tdiv` and `Int.tmod`.
* A failed `assert`, a thrown exception or a division by zero is the result
  `none`.
-/

namespace Goldcoin

/-! ## arith_uint256 -/

/-- Modelled from the spec: `UintToArith256` (`arith_uint256.cpp` is not among the sources).
The 256-bit hash or limit read as an unsigned integer. -/
def UintToArith256 (a : Nat) : Nat := a % 2 ^ 256

/-- Modelled from the spec: the conversion of an `int64_t` operand to the unsigned
64-bit word from which `arith_uint256` builds its operand (two's complement). -/
def toUint64 (x : Int) : Nat := (x % 2 ^ 64).toNat

/-- Modelled from the spec: the conversion of an `int64_t` operand to the `uint32_t`
parameter of `arith_uint256::operator*=(uint32_t)` (`arith_uint256.h` is not among the
sources).  As in the reference implementation, the only multiplication by an integer
takes a 32-bit word, and an integral conversion is preferred to the constructor from
`uint64_t`, so `bnNew *= nActualTimespan` multiplies by the low 32 bits of the operand. -/
def toUint32 (x : Int) : Nat := (x % 2 ^ 32).toNat

/-- Modelled from the spec: `arith_uint256::operator*=`, the fixed-width (256-bit)
unsigned multiply of the data model; the product wraps modulo `2 ^ 256`.  The callers
pass the second operand as the word the operator receives (`toUint32`). -/
def mul256 (a b : Nat) : Nat := (a * b) % 2 ^ 256

/-- Modelled from the spec: `arith_uint256::operator/=`, truncating unsigned division;
a zero divisor is an error. -/
def div256 (a b : Nat) : Option Nat := if b = 0 then none else some (a / b)

/-- Modelled from the spec: `base_uint::bits` scanning from bit `p - 1` downwards: the
position of the highest set bit plus one, `0` when no bit below `p` is set. -/
def bitsFrom : Nat → Nat → Nat
  | 0, _ => 0
  | p + 1, x => if x.testBit p then p + 1 else bitsFrom p x

/-- Modelled from the spec: `arith_uint256::bits`, the number of significant bits. -/
def bits (x : Nat) : Nat := bitsFrom 256 x

/-- Modelled from the spec: `arith_uint256::GetLow64`. -/
def GetLow64 (x : Nat) : Nat := x % 2 ^ 64

/-- Result of decoding a compact target: the magnitude and the two flags. -/
structure Decoded where
  value : Nat
  fNegative : Bool
  fOverflow : Bool
deriving DecidableEq, Repr

/-- Modelled from the spec: `arith_uint256::SetCompact` (`arith_uint256.cpp` is not among
the sources).  Spec §3/§4.1: the top byte of the 32-bit compact value is the
exponent, the low three bytes the mantissa whose highest bit is the sign flag;
the magnitude is the mantissa scaled by `256 ^ (exponent - 3)`, shifted right
when the exponent is below 3, kept to 256 bits.  The spec defers to the
reference implementation for the exact rule; as there, the sign bit is not part
of the magnitude and both flags are raised only for a non-zero mantissa word. -/
def SetCompact (nCompact : Nat) : Decoded :=
  let c := nCompact % 2 ^ 32
  let nSize := c >>> 24
  let nWord0 := c &&& 0x007fffff
  let nWord := if nSize ≤ 3 then nWord0 >>> (8 * (3 - nSize)) else nWord0
  let value := if nSize ≤ 3 then nWord else (nWord <<< (8 * (nSize - 3))) % 2 ^ 256
  { value := value
    fNegative := decide (nWord ≠ 0) && decide (c &&& 0x00800000 ≠ 0)
    fOverflow := decide (nWord ≠ 0) &&
      (decide (nSize > 34) || (decide (nWord > 0xff) && decide (nSize > 33)) ||
        (decide (nWord > 0xffff) && decide (nSize > 32))) }

/-- Modelled from the spec: `arith_uint256::GetCompact()` with its default argument
(`pow.cpp` never passes `fNegative`).  Spec §4.1: keep the three most
significant bytes as the mantissa and the byte length as the exponent; as in
the reference implementation, a mantissa whose sign bit would be set is shifted
down one byte and the exponent raised. -/
def GetCompact (x : Nat) : Nat :=
  let nSize := (bits x + 7) / 8
  let nCompact :=
    if nSize ≤ 3 then (GetLow64 x <<< (8 * (3 - nSize))) % 2 ^ 64 % 2 ^ 32
    else GetLow64 (x >>> (8 * (nSize - 3))) % 2 ^ 32
  let fix := decide (nCompact &&& 0x00800000 ≠ 0)
  let nCompact1 := if fix then nCompact >>> 8 else nCompact
  let nSize1 := if fix then nSize + 1 else nSize
  (nCompact1 ||| (nSize1 <<< 24)) % 2 ^ 32

/-! ## Chain data -/

/-- Modelled from the spec: the fields of `Consensus::Params` that `pow.cpp` reads
(`consensus/params.h` is not among the sources). -/
structure Params where
  powLimit : Nat
  powScryptLimit : Nat
  goldcoinRBH : Int
  nPowTargetSpacing : Int
  nPowTargetTimespan : Int
  fPowAllowMinDifficultyBlocks : Bool
  fPowNoRetargeting : Bool
deriving DecidableEq, Repr

/-- Modelled from the spec: `Params::DifficultyAdjustmentInterval`, the target timespan
divided by the target spacing; `none` when the spacing is zero. -/
def Params.DifficultyAdjustmentInterval (params : Params) : Option Int :=
  if params.nPowTargetSpacing = 0 then none
  else some (params.nPowTargetTimespan.tdiv params.nPowTargetSpacing)

/-- Fields of a block-index entry read by `pow.cpp`. -/
structure BlockData where
  nHeight : Int
  nTime : Int
  nBits : Nat
deriving DecidableEq, Repr

/-- Modelled from the spec: `CBlockIndex` (`chain.h` is not among the sources): height,
timestamp, compact target and the backward link `pprev`, which is null for
`root` and the parent for `node`. -/
inductive CBlockIndex where
  | root (d : BlockData) : CBlockIndex
  | node (d : BlockData) (parent : CBlockIndex) : CBlockIndex
deriving DecidableEq, Repr

namespace CBlockIndex

/-- Own fields of the entry. -/
def data : CBlockIndex → BlockData
  | root d => d
  | node d _ => d

/-- Field `nHeight`. -/
def nHeight (b : CBlockIndex) : Int := b.data.nHeight

/-- Field `nBits`. -/
def nBits (b : CBlockIndex) : Nat := b.data.nBits

/-- Method `GetBlockTime`. -/
def GetBlockTime (b : CBlockIndex) : Int := b.data.nTime

/-- Field `pprev`; `none` is the null pointer. -/
def pprev : CBlockIndex → Option CBlockIndex
  | root _ => none
  | node _ p => some p

/-- Follow `pprev` exactly `k` times; `none` when a null link is met. -/
def back : Nat → CBlockIndex → Option CBlockIndex
  | 0, b => some b
  | _ + 1, root _ => none
  | k + 1, node _ p => back k p

/-- Modelled from the spec: `CBlockIndex::GetAncestor`, the ancestor at a given height
reached by walking parent links; null for a negative height or one above the
entry's own. -/
def GetAncestor (b : CBlockIndex) (height : Int) : Option CBlockIndex :=
  if height > b.nHeight ∨ height < 0 then none
  else back (b.nHeight - height).toNat b

end CBlockIndex

/-- Modelled from the spec: the candidate `CBlockHeader`; only its timestamp is read. -/
structure CBlockHeader where
  nTime : Int
deriving DecidableEq, Repr

/-- Method `GetBlockTime` of the candidate header. -/
def CBlockHeader.GetBlockTime (h : CBlockHeader) : Int := h.nTime

/-! ## `pow.cpp` -/

/-- The comparator `comp64`: strictly greater, so `std::sort` orders descending. -/
def comp64 (num1 num2 : Int) : Bool := decide (num1 > num2)

/-- The walk of `GoldenRiver` lines 82-85: follow `pprev` while the pointer is
non-null and fewer than `blockstogoback` steps were made; `none` is a null
`pindexFirst`, on which the assertion fails. -/
def walkFirst : Nat → CBlockIndex → Option CBlockIndex
  | 0, b => some b
  | k + 1, b =>
    match b.pprev with
    | none => none
    | some p => walkFirst k p

/-- Lines 114-115: `if (tblock2->pprev) tblock2 = tblock2->pprev;`. -/
def stepBack (b : CBlockIndex) : CBlockIndex :=
  match b.pprev with
  | some p => p
  | none => b

/-- Variables of the collection loop of `GoldenRiver` (lines 93-118). -/
structure WalkState where
  tblock2 : CBlockIndex
  last60BlockTimes : List Int
  last120BlockTimes : List Int
  nbits60ago : Nat
  nbits240ago : Nat

/-- One iteration of `while (counter <= 240)` (lines 100-118). -/
def collectStep (s : WalkState) (counter : Nat) : WalkState :=
  { nbits60ago := if counter = 60 then s.tblock2.nBits else s.nbits60ago
    nbits240ago := if counter = 240 then s.tblock2.nBits else s.nbits240ago
    last60BlockTimes :=
      if s.last60BlockTimes.length < 60 then s.last60BlockTimes ++ [s.tblock2.GetBlockTime]
      else s.last60BlockTimes
    last120BlockTimes :=
      if s.last120BlockTimes.length < 120 then s.last120BlockTimes ++ [s.tblock2.GetBlockTime]
      else s.last120BlockTimes
    tblock2 := stepBack s.tblock2 }

/-- The collection loop run for `counter = 0, ..., 240`. -/
def collect (pindexLast : CBlockIndex) : WalkState :=
  (List.range 241).foldl collectStep
    { tblock2 := pindexLast, last60BlockTimes := [], last120BlockTimes := [],
      nbits60ago := 0, nbits240ago := 0 }

/-- Unchecked `operator[]` on a timestamp vector (the index is always in range in
`GoldenRiver`; `0` stands for an out-of-range read). -/
def idx (v : List Int) (i : Nat) : Int := v.getD i 0

/-- Variables of the difference loop of `GoldenRiver` (lines 120-134). -/
structure DiffState where
  last59TimeDifferences : List Int
  last119TimeDifferences : List Int
  total : Int

/-- One iteration of `while (xy < 119)` (lines 125-134). -/
def diffStep (last60BlockTimes last120BlockTimes : List Int) (s : DiffState) (xy : Nat) :
    DiffState :=
  let d119 := s.last119TimeDifferences ++
    [|idx last120BlockTimes xy - idx last120BlockTimes (xy + 1)|]
  { last59TimeDifferences :=
      if xy < 59 then
        s.last59TimeDifferences ++ [|idx last60BlockTimes xy - idx last60BlockTimes (xy + 1)|]
      else s.last59TimeDifferences
    last119TimeDifferences := d119
    total := s.total + idx d119 xy }

/-- The difference loop run for `xy = 0, ..., 118`. -/
def differences (last60BlockTimes last120BlockTimes : List Int) : DiffState :=
  (List.range 119).foldl (diffStep last60BlockTimes last120BlockTimes)
    { last59TimeDifferences := [], last119TimeDifferences := [], total := 0 }

/-- The sorted differences (line 135): `std::sort` with `comp64`. -/
def sortedDifferences (d : DiffState) : List Int :=
  d.last59TimeDifferences.insertionSort (fun a b => comp64 a b = true)

/-- Value of `averageTime` after line 140. -/
def averageTime (d : DiffState) : Int := d.total.tdiv 119

/-- Value of `medTime` after line 144: the smaller of the element at index 29 of the
sorted differences and the average. -/
def initialMedTime (d : DiffState) : Int :=
  let medTime := |idx (sortedDifferences d) 29|
  if medTime > averageTime d then averageTime d else medTime

/-- The condition of line 146, which sets `didHalfAdjust`. -/
def halfAdjust (d : DiffState) : Bool :=
  decide (averageTime d ≥ 180) && decide (idx d.last119TimeDifferences 0 ≥ 1200) &&
    decide (idx d.last119TimeDifferences 1 ≥ 1200)

/-- Checked access `vector::at`; `none` is the thrown `out_of_range`. -/
def vectorAt (v : List Int) (i : Int) : Option Int :=
  if i < 0 then none else v.get? i.toNat

/-- One iteration of `while (index != 55)` (lines 160-168) on `numTooClose`. -/
def scanStep (last60BlockTimes : List Int) (numTooClose : Option Nat) (index : Nat) :
    Option Nat :=
  match numTooClose, vectorAt last60BlockTimes ((last60BlockTimes.length : Int) - index),
      vectorAt last60BlockTimes ((last60BlockTimes.length : Int) - (index + 5)) with
  | some n, some a, some b => some (if |a - b| = 600 then n + 1 else n)
  | _, _, _ => none

/-- The scan run for `index = 1, ..., 54`. -/
def numTooClose (last60BlockTimes : List Int) : Option Nat :=
  ((List.range 54).map (· + 1)).foldl (scanStep last60BlockTimes) (some 0)

/-- Lines 146-181: the half-adjust override and the deadlock defence applied to
`medTime`. -/
def defendedMedTime (last60BlockTimes : List Int) (d : DiffState) : Option Int :=
  let medTime := if halfAdjust d then 240 else initialMedTime d
  if medTime ≥ 120 then
    match numTooClose last60BlockTimes with
    | none => none
    | some n => some (if n > 0 then 119 else medTime)
  else some medTime

/-- Lines 185-210: the banding of `medTime`. -/
def bandedMedTime (averageTime medTime : Int) (didHalfAdjust : Bool) : Int :=
  if averageTime > 216 ∨ medTime > 122 then
    if didHalfAdjust then 170 else 121
  else if averageTime < 117 ∨ medTime < 117 then 117
  else medTime

/-- Lines 212-254: the retarget arithmetic on the decoded targets. -/
def retarget (nBits nbits60ago nbits240ago : Nat) (medTime : Int) (didHalfAdjust : Bool)
    (bnProofOfWorkLimit : Nat) : Nat :=
  let nActualTimespan := medTime * 60
  let bn60ago := (SetCompact nbits60ago).value
  let bn240ago := (SetCompact nbits240ago).value
  let bnLast := (SetCompact nBits).value
  let bnNew := mul256 (SetCompact nBits).value (toUint32 nActualTimespan) / 7200
  let bnLast := mul256 bnLast 10 / 8
  let bnNew :=
    if !didHalfAdjust && decide (bnNew > bnLast) then (SetCompact (GetCompact bnLast)).value
    else bnNew
  let bn60ago := mul256 bn60ago 100 / 102
  let bnNew := if bnNew < bn60ago then (SetCompact (GetCompact bn60ago)).value else bnNew
  let bn240ago := mul256 bn240ago 100 / 408
  let bnNew := if bnNew < bn240ago then (SetCompact (GetCompact bn240ago)).value else bnNew
  let bnNew := if bnNew > bnProofOfWorkLimit then bnProofOfWorkLimit else bnNew
  GetCompact bnNew

/-- The function `GoldenRiver` of `pow.cpp`. -/
def GoldenRiver (pindexLast : CBlockIndex) (params : Params) : Option Nat :=
  let bnProofOfWorkLimit := UintToArith256 params.powScryptLimit
  let nInterval : Int := (2 * 60 * 60 : Int).tdiv (2 * 60)
  let blockstogoback : Int :=
    if pindexLast.nHeight + 1 ≠ nInterval then nInterval else nInterval - 1
  match walkFirst blockstogoback.toNat pindexLast with
  | none => none
  | some _ =>
    let w := collect pindexLast
    let d := differences w.last60BlockTimes w.last120BlockTimes
    let didHalfAdjust := halfAdjust d
    match defendedMedTime w.last60BlockTimes d with
    | none => none
    | some medTime =>
      some (retarget pindexLast.nBits w.nbits60ago w.nbits240ago
        (bandedMedTime (averageTime d) medTime didHalfAdjust) didHalfAdjust bnProofOfWorkLimit)

/-- The function `CalculateNextWorkRequired` of `pow.cpp`. -/
def CalculateNextWorkRequired (pindexLast : CBlockIndex) (nFirstBlockTime : Int)
    (params : Params) : Option Nat :=
  if params.fPowNoRetargeting then some pindexLast.nBits
  else
    let nActualTimespan := pindexLast.GetBlockTime - nFirstBlockTime
    let nActualTimespan :=
      if nActualTimespan < params.nPowTargetTimespan.tdiv 4 then params.nPowTargetTimespan.tdiv 4
      else nActualTimespan
    let nActualTimespan :=
      if nActualTimespan > params.nPowTargetTimespan * 4 then params.nPowTargetTimespan * 4
      else nActualTimespan
    let bnPowLimit := UintToArith256 params.powLimit
    let bnNew := mul256 (SetCompact pindexLast.nBits).value (toUint32 nActualTimespan)
    match div256 bnNew (toUint64 params.nPowTargetTimespan) with
    | none => none
    | some bnNew =>
      let bnNew := if bnNew > bnPowLimit then bnPowLimit else bnNew
      some (GetCompact bnNew)

/-- The loop of lines 42-44: step back while there is a parent, the height is not on
an adjustment boundary and the bits are the minimum-difficulty bits. -/
def lastNonSpecial (interval : Int) (nProofOfWorkLimit : Nat) : CBlockIndex → CBlockIndex
  | CBlockIndex.root d => CBlockIndex.root d
  | CBlockIndex.node d p =>
    if d.nHeight.tmod interval ≠ 0 ∧ d.nBits = nProofOfWorkLimit then
      lastNonSpecial interval nProofOfWorkLimit p
    else CBlockIndex.node d p

/-- The function `GetNextWorkRequired` of `pow.cpp`. -/
def GetNextWorkRequired (pindexLast : CBlockIndex) (pblock : CBlockHeader) (params : Params) :
    Option Nat :=
  if pindexLast.nHeight + 1 ≥ params.goldcoinRBH then
    if pindexLast.nHeight + 1 ≤ params.goldcoinRBH + 240 then
      some (GetCompact (UintToArith256 params.powScryptLimit))
    else GoldenRiver pindexLast params
  else
    let nProofOfWorkLimit := GetCompact (UintToArith256 params.powLimit)
    match params.DifficultyAdjustmentInterval with
    | none => none
    | some interval =>
      if interval = 0 then none
      else if (pindexLast.nHeight + 1).tmod interval ≠ 0 then
        if params.fPowAllowMinDifficultyBlocks then
          if pblock.GetBlockTime > pindexLast.GetBlockTime + params.nPowTargetSpacing * 2 then
            some nProofOfWorkLimit
          else some (lastNonSpecial interval nProofOfWorkLimit pindexLast).nBits
        else some pindexLast.nBits
      else
        let nHeightFirst := pindexLast.nHeight - (interval - 1)
        if nHeightFirst < 0 then none
        else
          match pindexLast.GetAncestor nHeightFirst with
          | none => none
          | some pindexFirst =>
            CalculateNextWorkRequired pindexLast pindexFirst.GetBlockTime params

/-- The function `CheckProofOfWork` of `pow.cpp`. -/
def CheckProofOfWork (hash : Nat) (nBits : Nat) (params : Params) : Bool :=
  let t := SetCompact nBits
  if t.fNegative || decide (t.value = 0) || t.fOverflow ||
      decide (t.value > UintToArith256 params.powLimit) then false
  else if UintToArith256 hash > t.value then false
  else true

/-! ## Notions used to state the properties -/

/-- A magnitude after one trip through the compact form: `SetCompact (GetCompact x)`. -/
def recode (x : Nat) : Nat := (SetCompact (GetCompact x)).value

/-- Number of low-order bytes that `recode` clears. -/
def lostBytes (x : Nat) : Nat := (bits x + 8) / 8 - 3

/-- The entry `k` guarded steps back from `b`, as the collection loop reaches it: the
`k`-th ancestor, or the oldest entry when the chain is shorter. -/
def blockAgo (k : Nat) (b : CBlockIndex) : CBlockIndex := stepBack^[k] b

/-- The differences computed by `GoldenRiver` for a given tip. -/
def differencesOf (pindexLast : CBlockIndex) : DiffState :=
  differences (collect pindexLast).last60BlockTimes (collect pindexLast).last120BlockTimes

/-- Data-model invariant of the block index (spec §3): the entry without parent is
genesis, at height 0, and every other entry is one above its parent. -/
def CBlockIndex.wellFormed : CBlockIndex → Bool
  | CBlockIndex.root d => decide (d.nHeight = 0)
  | CBlockIndex.node d p => decide (d.nHeight = p.nHeight + 1) && p.wellFormed

/-- ClassicRetarget as the spec words it (§4.3): the previous bits when retargeting is
off; otherwise the decoded previous target times the timespan clamped into
`[targetTimespan / 4, targetTimespan * 4]`, as a 256-bit product, divided by the
target timespan, capped at the standard limit and encoded. -/
def ClassicRetargetSpec (bits : Nat) (lastTime firstBlockTime : Int) (params : Params) : Nat :=
  if params.fPowNoRetargeting then bits
  else
    let clamped : Int :=
      min (max (lastTime - firstBlockTime) (params.nPowTargetTimespan.tdiv 4))
        (params.nPowTargetTimespan * 4)
    GetCompact
      (min ((SetCompact bits).value * clamped.toNat % 2 ^ 256 / params.nPowTargetTimespan.toNat)
        (params.powLimit % 2 ^ 256))

/-- ClassicRetarget with the multiplier the code uses: as `ClassicRetargetSpec`, but the
decoded previous target is multiplied by the low 32 bits of the clamped timespan. -/
def ClassicRetargetLow32 (bits : Nat) (lastTime firstBlockTime : Int) (params : Params) : Nat :=
  if params.fPowNoRetargeting then bits
  else
    let clamped : Int :=
      min (max (lastTime - firstBlockTime) (params.nPowTargetTimespan.tdiv 4))
        (params.nPowTargetTimespan * 4)
    GetCompact
      (min ((SetCompact bits).value * (clamped.toNat % 2 ^ 32) % 2 ^ 256 /
          params.nPowTargetTimespan.toNat)
        (params.powLimit % 2 ^ 256))

/-! ## Sample inputs -/

/-- A proof-of-work limit with twenty leading zero bits; its compact form is `0x1e0fffff`. -/
def sampleLimit : Nat := 0x00000fffff000000000000000000000000000000000000000000000000000000

/-- Parameters with two-minute spacing, a two-hour timespan and the fork at height 0. -/
def sampleParams : Params :=
  { powLimit := sampleLimit, powScryptLimit := sampleLimit, goldcoinRBH := 0,
    nPowTargetSpacing := 120, nPowTargetTimespan := 7200,
    fPowAllowMinDifficultyBlocks := false, fPowNoRetargeting := false }

/-- The sample parameters with the fork far in the future (classic regime). -/
def classicParams : Params := { sampleParams with goldcoinRBH := 1000000 }

/-- The classic parameters with a target timespan of `2 ^ 34` seconds, a quarter of which
no longer fits 32 bits. -/
def wideParams : Params := { classicParams with nPowTargetTimespan := 17179869184 }

/-- The classic parameters with minimum-difficulty blocks allowed. -/
def testnetParams : Params := { classicParams with fPowAllowMinDifficultyBlocks := true }

/-- The classic parameters with retargeting switched off and a tighter limit. -/
def noRetargetParams : Params :=
  { classicParams with
    fPowNoRetargeting := true
    powLimit := 0x00000000ffff0000000000000000000000000000000000000000000000000000 }

/-- A chain of `n + 1` entries at heights `0 .. n`, evenly spaced in time, all with
the same bits. -/
def uniformChain (spacing : Int) (nBits : Nat) : Nat → CBlockIndex
  | 0 => CBlockIndex.root { nHeight := 0, nTime := 0, nBits := nBits }
  | n + 1 =>
    CBlockIndex.node { nHeight := n + 1, nTime := spacing * (n + 1), nBits := nBits }
      (uniformChain spacing nBits n)

/-- A chain of 241 entries, one minute apart, all at the sample limit. -/
def fastChain : CBlockIndex := uniformChain 60 0x1e0fffff 240

/-- The first 240 entries of `fastChain`: its tip is at height 239. -/
def warmupChain : CBlockIndex := uniformChain 60 0x1e0fffff 239

/-- A chain of `n + 1` entries at heights `0 .. n`, evenly spaced in time, whose bits
are `oldBits` below height `switch` and `newBits` from there on. -/
def steppedChain (spacing : Int) (oldBits newBits switch : Nat) : Nat → CBlockIndex
  | 0 =>
    CBlockIndex.root
      { nHeight := 0, nTime := 0, nBits := if switch ≤ 0 then newBits else oldBits }
  | n + 1 =>
    CBlockIndex.node
      { nHeight := n + 1, nTime := spacing * (n + 1),
        nBits := if switch ≤ n + 1 then newBits else oldBits }
      (steppedChain spacing oldBits newBits switch n)

/-- A chain of 241 entries, 150 seconds apart: the sample limit up to height 180, a
target one third lower (`0x1e0aaaaa`) for the 60 newest entries. -/
def steepChain : CBlockIndex := steppedChain 150 0x1e0fffff 0x1e0aaaaa 181 240

/-- A candidate header. -/
def sampleHeader : CBlockHeader := { nTime := 14460 }

/-! ## Stages of `GoldenRiver` -/

/-- Value of `medTime` on entry to the deadlock defence, after the half-adjust override
of lines 146-150. -/
def overriddenMedTime (d : DiffState) : Int :=
  if halfAdjust d then 240 else initialMedTime d

/-- Lines 154-181 on their own: the deadlock defence applied to a given `medTime`. -/
def deadlockDefense (last60BlockTimes : List Int) (medTime : Int) : Option Int :=
  if medTime ≥ 120 then
    match numTooClose last60BlockTimes with
    | none => none
    | some n => some (if n > 0 then 119 else medTime)
  else some medTime

/-- Value of `medTime` after line 181 for a given tip. -/
def medTimeAfterDefense (pindexLast : CBlockIndex) : Option Int :=
  defendedMedTime (collect pindexLast).last60BlockTimes (differencesOf pindexLast)

/-- Value of `medTime` after line 210 for a given tip: the one the retarget arithmetic
uses. -/
def finalMedTime (pindexLast : CBlockIndex) : Option Int :=
  (medTimeAfterDefense pindexLast).map fun medTime =>
    bandedMedTime (averageTime (differencesOf pindexLast)) medTime
      (halfAdjust (differencesOf pindexLast))

/-- Lines 212 and 221-224: `bnNew` before any clamp. -/
def unconstrainedTarget (nBits : Nat) (medTime : Int) : Nat :=
  mul256 (SetCompact nBits).value (toUint32 (medTime * 60)) / 7200

/-- Lines 226-233: `bnNew` after the floor on difficulty decreases. -/
def flooredTarget (nBits : Nat) (medTime : Int) (didHalfAdjust : Bool) : Nat :=
  if !didHalfAdjust &&
      decide (unconstrainedTarget nBits medTime > mul256 (SetCompact nBits).value 10 / 8) then
    (SetCompact (GetCompact (mul256 (SetCompact nBits).value 10 / 8))).value
  else unconstrainedTarget nBits medTime

/-- Lines 235-254: the two history bounds, the cap at the limit and the encoding,
applied to `bnNew`. -/
def boundedTarget (bnNew nbits60ago nbits240ago bnProofOfWorkLimit : Nat) : Nat :=
  let bn60ago := mul256 (SetCompact nbits60ago).value 100 / 102
  let bnNew := if bnNew < bn60ago then (SetCompact (GetCompact bn60ago)).value else bnNew
  let bn240ago := mul256 (SetCompact nbits240ago).value 100 / 408
  let bnNew := if bnNew < bn240ago then (SetCompact (GetCompact bn240ago)).value else bnNew
  let bnNew := if bnNew > bnProofOfWorkLimit then bnProofOfWorkLimit else bnNew
  GetCompact bnNew

/-! ## Further notions used to state the properties -/

/-- Absolute differences of consecutive entries of a list of timestamps. -/
def absDiffs : List Int → List Int
  | a :: b :: l => |a - b| :: absDiffs (b :: l)
  | _ => []

/-- Every entry with a parent is one above its parent (no condition on the oldest
entry). -/
def CBlockIndex.heightsLinked : CBlockIndex → Bool
  | CBlockIndex.root _ => true
  | CBlockIndex.node d p => decide (d.nHeight = p.nHeight + 1) && p.heightsLinked

/-- Stop condition of the loop of lines 42-44 at an entry: no parent, a height on an
adjustment boundary, or bits other than the minimum-difficulty bits. -/
def isRealTarget (interval : Int) (nProofOfWorkLimit : Nat) (b : CBlockIndex) : Prop :=
  b.pprev = none ∨ interval ∣ b.nHeight ∨ b.nBits ≠ nProofOfWorkLimit

/-! ## Further sample inputs -/

/-- A chain of `n + 1` entries at heights `0 .. n` with the given timestamps, all with
the same bits. -/
def timedChain (time : Nat → Int) (nBits : Nat) : Nat → CBlockIndex
  | 0 => CBlockIndex.root { nHeight := 0, nTime := time 0, nBits := nBits }
  | n + 1 =>
    CBlockIndex.node { nHeight := n + 1, nTime := time (n + 1), nBits := nBits }
      (timedChain time nBits n)

/-- A chain of 241 entries one minute apart, except for a gap of six minutes between
heights 229 and 230. -/
def gapChain : CBlockIndex :=
  timedChain (fun h => 60 * h + (if 230 ≤ h then 300 else 0)) 0x1e0fffff 240

/-- A chain of 241 entries two minutes apart, except that the two newest entries each
come 4000 seconds after their parent. -/
def stalledChain : CBlockIndex :=
  timedChain (fun h => 120 * h + (if 239 ≤ h then 3880 else 0) + (if 240 ≤ h then 3880 else 0))
    0x1e0fffff 240

/-- A window of 60 timestamps, newest first, 1000 seconds apart, except that the
newest is only 600 seconds after the one five places back. -/
def skewedWindow : List Int :=
  (List.range 60).map fun i => if i = 0 then 55600 else 1000 * (60 - (i : Int))

/-- A chain of 60 entries at the sample limit, two minutes apart, on which the tip and
its two parents carry the minimum-difficulty bits and the rest a harder target. -/
def testnetChain : CBlockIndex := steppedChain 120 0x1d0fffff 0x1e0fffff 56 58

/-- A chain of 241 entries, 1300 seconds apart, all at the sample limit. -/
def slowChain : CBlockIndex := uniformChain 1300 0x1e0fffff 240

/-- A window of 60 timestamps, newest first, two minutes apart. -/
def regularWindow : List Int :=
  (List.range 60).map fun i => 120 * (60 - (i : Int))

/-- A candidate header 100 seconds after the tip of `testnetChain`. -/
def promptHeader : CBlockHeader := { nTime := 58 * 120 + 100 }

/-! ## Lemmas on the compact form -/

set_option maxRecDepth 100000

theorem bitsFrom_le (p x : Nat) : bitsFrom p x ≤ p := by
  induction p with
  | zero => simp [bitsFrom]
  | succ p ih =>
    unfold bitsFrom
    split
    · exact le_rfl
    · exact Nat.le_succ_of_le ih

theorem lt_two_pow_bitsFrom (p x : Nat) (h : x < 2 ^ p) : x < 2 ^ bitsFrom p x := by
  induction p with
  | zero => simpa [bitsFrom] using h
  | succ p ih =>
    unfold bitsFrom
    split
    · exact h
    · rename_i hb
      apply ih
      rw [Nat.testBit_to_div_mod] at hb
      have h2 : x / 2 ^ p < 2 := Nat.div_lt_of_lt_mul (by rw [pow_succ] at h; omega)
      have h3 : x / 2 ^ p = 0 := by
        have h4 : ¬ (x / 2 ^ p % 2 = 1) := by simpa using hb
        generalize x / 2 ^ p = q at h2 h4
        omega
      have hp : 0 < 2 ^ p := Nat.pos_pow_of_pos p (by norm_num)
      exact (Nat.div_eq_zero_iff hp).1 h3

theorem two_pow_le_of_bitsFrom (p x : Nat) (h0 : bitsFrom p x ≠ 0) :
    2 ^ (bitsFrom p x - 1) ≤ x := by
  induction p with
  | zero => simp [bitsFrom] at h0
  | succ p ih =>
    unfold bitsFrom at h0 ⊢
    split
    · rename_i hb
      simpa using Nat.testBit_implies_ge hb
    · rename_i hb
      simp only [hb] at h0
      exact ih (by simpa using h0)

theorem bits_le (x : Nat) : bits x ≤ 256 := bitsFrom_le 256 x

theorem lt_two_pow_bits (x : Nat) (h : x < 2 ^ 256) : x < 2 ^ bits x :=
  lt_two_pow_bitsFrom 256 x h

theorem two_pow_le_of_bits (x : Nat) (h0 : bits x ≠ 0) : 2 ^ (bits x - 1) ≤ x :=
  two_pow_le_of_bitsFrom 256 x h0

/-- Below `2 ^ 256`, `bits x ≤ j` exactly when `x < 2 ^ j`. -/
theorem bits_le_iff (x j : Nat) (h : x < 2 ^ 256) : bits x ≤ j ↔ x < 2 ^ j := by
  constructor
  · intro hj
    exact lt_of_lt_of_le (lt_two_pow_bits x h) (Nat.pow_le_pow_right (by norm_num) hj)
  · intro hx
    by_contra hc
    have h0 : bits x ≠ 0 := by omega
    have h1 := two_pow_le_of_bits x h0
    have h2 : 2 ^ j ≤ 2 ^ (bits x - 1) := Nat.pow_le_pow_right (by norm_num) (by omega)
    omega

theorem bits_mono (x y : Nat) (hy : y < 2 ^ 256) (hxy : x ≤ y) : bits x ≤ bits y :=
  (bits_le_iff x (bits y) (lt_of_le_of_lt hxy hy)).2
    (lt_of_le_of_lt hxy (lt_two_pow_bits y hy))

theorem signBit_iff (m : Nat) (h : m < 2 ^ 24) : (m &&& 0x00800000 ≠ 0) ↔ 2 ^ 23 ≤ m := by
  have h23 : (0x00800000 : Nat) = 2 ^ 23 := by norm_num
  rw [h23, Nat.and_two_pow, Nat.testBit_to_div_mod]
  by_cases h1 : m / 2 ^ 23 % 2 = 1
  · simp [h1]; omega
  · simp [h1]; omega

theorem or_shift24 (w s : Nat) (hw : w < 2 ^ 24) : w ||| (s <<< 24) = w + s * 2 ^ 24 := by
  rw [Nat.shiftLeft_eq, Nat.or_comm, Nat.mul_comm, ← Nat.mul_add_lt_is_or hw]
  omega

/-- Packing a mantissa and a size into a compact value. -/
theorem pack_eq (m n : Nat) (hm : m < 2 ^ 24) (hn : n ≤ 33) :
    ((if decide (m &&& 0x00800000 ≠ 0) = true then m >>> 8 else m) |||
      ((if decide (m &&& 0x00800000 ≠ 0) = true then n + 1 else n) <<< 24)) % 2 ^ 32 =
    if 2 ^ 23 ≤ m then m / 256 + (n + 1) * 2 ^ 24 else m + n * 2 ^ 24 := by
  have hs := signBit_iff m hm
  by_cases h : 2 ^ 23 ≤ m
  · have h1 : m &&& 0x00800000 ≠ 0 := hs.2 h
    simp only [h1, h, decide_True, if_true, ne_eq, not_false_eq_true]
    rw [Nat.shiftRight_eq_div_pow, or_shift24 _ _ (by omega)]
    omega
  · have h1 : ¬ (m &&& 0x00800000 ≠ 0) := fun hc => h (hs.1 hc)
    simp only [h1, h, decide_False, if_false, Bool.false_eq_true]
    rw [or_shift24 _ _ hm]
    omega

/-- Decoding a compact value given by its mantissa word and size. -/
theorem SetCompact_pack (w s : Nat) (hw : w < 2 ^ 23) (hs : s < 256) :
    (SetCompact (w + s * 2 ^ 24)).value =
      if s ≤ 3 then w / 2 ^ (8 * (3 - s)) else w * 2 ^ (8 * (s - 3)) % 2 ^ 256 := by
  have hc : (w + s * 2 ^ 24) % 2 ^ 32 = w + s * 2 ^ 24 := by omega
  have h23 : (0x007fffff : Nat) = 2 ^ 23 - 1 := by norm_num
  have hsz : (w + s * 2 ^ 24) >>> 24 = s := by
    rw [Nat.shiftRight_eq_div_pow]; omega
  have hwd : (w + s * 2 ^ 24) &&& 0x007fffff = w := by
    rw [h23, Nat.and_pow_two_sub_one_eq_mod]; omega
  unfold SetCompact
  simp only [hc, hsz, hwd]
  by_cases h : s ≤ 3
  · simp only [h, if_true, Nat.shiftRight_eq_div_pow]
  · simp only [h, if_false, Nat.shiftLeft_eq]

theorem GetCompact_small (x n : Nat) (hn : (bits x + 7) / 8 = n) (hn3 : n ≤ 3)
    (hx : x < 2 ^ (8 * n)) :
    GetCompact x =
      if 2 ^ 23 ≤ x * 2 ^ (8 * (3 - n)) then x * 2 ^ (8 * (3 - n)) / 256 + (n + 1) * 2 ^ 24
      else x * 2 ^ (8 * (3 - n)) + n * 2 ^ 24 := by
  have hm : (GetLow64 x <<< (8 * (3 - n))) % 2 ^ 64 % 2 ^ 32 = x * 2 ^ (8 * (3 - n)) := by
    unfold GetLow64
    rw [Nat.shiftLeft_eq]
    interval_cases n <;> norm_num at hx ⊢ <;> omega
  have hlt : x * 2 ^ (8 * (3 - n)) < 2 ^ 24 := by
    interval_cases n <;> norm_num at hx ⊢ <;> omega
  unfold GetCompact
  simp only [hn, hn3, if_true, hm]
  exact pack_eq _ _ hlt (by omega)

theorem GetCompact_large (x n : Nat) (hn : (bits x + 7) / 8 = n) (hn3 : 3 < n) (hn32 : n ≤ 32)
    (hx : x < 2 ^ (8 * n)) :
    GetCompact x =
      if 2 ^ 23 ≤ x / 2 ^ (8 * (n - 3)) then x / 2 ^ (8 * (n - 3)) / 256 + (n + 1) * 2 ^ 24
      else x / 2 ^ (8 * (n - 3)) + n * 2 ^ 24 := by
  have hlt : x / 2 ^ (8 * (n - 3)) < 2 ^ 24 := by
    apply Nat.div_lt_of_lt_mul
    rw [← pow_add]
    have : 8 * (n - 3) + 24 = 8 * n := by omega
    rw [this]; exact hx
  have hm : GetLow64 (x >>> (8 * (n - 3))) % 2 ^ 32 = x / 2 ^ (8 * (n - 3)) := by
    unfold GetLow64
    rw [Nat.shiftRight_eq_div_pow]
    generalize x / 2 ^ (8 * (n - 3)) = q at hlt
    omega
  have hn3' : ¬ n ≤ 3 := by omega
  unfold GetCompact
  simp only [hn, hn3', if_false, hm]
  exact pack_eq _ _ hlt (by omega)

theorem recode_small (x n : Nat) (hn : (bits x + 7) / 8 = n) (hn3 : n ≤ 3)
    (hxn : x < 2 ^ (8 * n)) (h23 : x < 2 ^ 23) : recode x = x := by
  unfold recode
  rw [GetCompact_small x n hn hn3 hxn]
  interval_cases n
  · norm_num at hxn ⊢
    subst hxn
    exact SetCompact_pack 0 0 (by norm_num) (by norm_num)
  · norm_num at hxn ⊢
    split_ifs with h
    · have key := SetCompact_pack (x * 65536 / 256) 2 (by omega) (by norm_num)
      norm_num at key ⊢
      rw [key]; omega
    · have key := SetCompact_pack (x * 65536) 1 (by omega) (by norm_num)
      norm_num at key ⊢
      rw [key]
  · norm_num at hxn ⊢
    split_ifs with h
    · have key := SetCompact_pack (x * 256 / 256) 3 (by omega) (by norm_num)
      norm_num at key ⊢
      rw [key]
    · have key := SetCompact_pack (x * 256) 2 (by omega) (by norm_num)
      norm_num at key ⊢
      rw [key]
  · norm_num at hxn ⊢
    have h' : ¬ (8388608 ≤ x) := by norm_num at h23; omega
    have key := SetCompact_pack x 3 (by omega) (by norm_num)
    norm_num at key ⊢
    rw [if_neg h', key]

theorem recode_24 (x : Nat) (hn : (bits x + 7) / 8 = 3)
    (hxn : x < 2 ^ 24) (h23 : 2 ^ 23 ≤ x) : recode x = x / 256 * 256 := by
  unfold recode
  rw [GetCompact_small x 3 hn (by norm_num) (by simpa using hxn)]
  have key := SetCompact_pack (x / 256) 4 (by omega) (by norm_num)
  norm_num at hxn h23 key ⊢
  rw [if_pos h23, key]
  omega

theorem recode_large (x n : Nat) (hx : x < 2 ^ 256) (hn : (bits x + 7) / 8 = n) (hn3 : 3 < n)
    (hn32 : n ≤ 32) (hxn : x < 2 ^ (8 * n)) :
    recode x =
      if 2 ^ (8 * n - 1) ≤ x then x / 2 ^ (8 * (n - 2)) * 2 ^ (8 * (n - 2))
      else x / 2 ^ (8 * (n - 3)) * 2 ^ (8 * (n - 3)) := by
  have hlt : x / 2 ^ (8 * (n - 3)) < 2 ^ 24 := by
    apply Nat.div_lt_of_lt_mul
    rw [← pow_add]
    have : 8 * (n - 3) + 24 = 8 * n := by omega
    rw [this]; exact hxn
  have hpos : 0 < 2 ^ (8 * (n - 3)) := Nat.pos_pow_of_pos _ (by norm_num)
  have hsplit : 2 ^ (8 * n - 1) = 2 ^ 23 * 2 ^ (8 * (n - 3)) := by
    rw [← pow_add]; congr 1; omega
  have hfix : 2 ^ 23 ≤ x / 2 ^ (8 * (n - 3)) ↔ 2 ^ (8 * n - 1) ≤ x := by
    rw [Nat.le_div_iff_mul_le hpos, hsplit]
  unfold recode
  rw [GetCompact_large x n hn hn3 hn32 hxn]
  by_cases h : 2 ^ (8 * n - 1) ≤ x
  · rw [if_pos (hfix.2 h), if_pos h]
    have hq : x / 2 ^ (8 * (n - 3)) / 256 = x / 2 ^ (8 * (n - 2)) := by
      rw [Nat.div_div_eq_div_mul]
      congr 1
      have : (256 : Nat) = 2 ^ 8 := by norm_num
      rw [this, ← pow_add]; congr 1; omega
    have hw : x / 2 ^ (8 * (n - 3)) / 256 < 2 ^ 23 := by
      generalize x / 2 ^ (8 * (n - 3)) = q at hlt; omega
    rw [SetCompact_pack _ (n + 1) hw (by omega)]
    have hn' : ¬ (n + 1 ≤ 3) := by omega
    rw [if_neg hn', hq]
    have : n + 1 - 3 = n - 2 := by omega
    rw [this]
    exact Nat.mod_eq_of_lt (lt_of_le_of_lt (Nat.div_mul_le_self _ _) hx)
  · rw [if_neg (fun hc => h (hfix.1 hc)), if_neg h]
    have hw : x / 2 ^ (8 * (n - 3)) < 2 ^ 23 := by
      by_contra hc
      exact h (hfix.1 (by omega))
    rw [SetCompact_pack _ n hw (by omega)]
    have hn' : ¬ (n ≤ 3) := by omega
    rw [if_neg hn']
    exact Nat.mod_eq_of_lt (lt_of_le_of_lt (Nat.div_mul_le_self _ _) hx)

/-- Decoding an encoded magnitude clears the bytes below the kept mantissa. -/
theorem recode_eq (x : Nat) (hx : x < 2 ^ 256) :
    recode x = x / 2 ^ (8 * lostBytes x) * 2 ^ (8 * lostBytes x) := by
  have hb := bits_le x
  have hlt := lt_two_pow_bits x hx
  obtain ⟨n, hn⟩ : ∃ n, (bits x + 7) / 8 = n := ⟨_, rfl⟩
  have hn32 : n ≤ 32 := by omega
  have hxn : x < 2 ^ (8 * n) :=
    lt_of_lt_of_le hlt (Nat.pow_le_pow_right (by norm_num) (by omega))
  by_cases hn3 : n ≤ 3
  · by_cases h23 : x < 2 ^ 23
    · have hb23 : bits x ≤ 23 := (bits_le_iff x 23 hx).2 h23
      have hk : lostBytes x = 0 := by unfold lostBytes; omega
      rw [recode_small x n hn hn3 hxn h23, hk]
      simp
    · have hb24 : ¬ bits x ≤ 23 := fun hc => h23 ((bits_le_iff x 23 hx).1 hc)
      have hn' : n = 3 := by omega
      subst hn'
      have hk : lostBytes x = 1 := by unfold lostBytes; omega
      rw [recode_24 x hn (by simpa using hxn) (by omega), hk]
      norm_num
  · have hn3' : 3 < n := by omega
    rw [recode_large x n hx hn hn3' hn32 hxn]
    by_cases h : 2 ^ (8 * n - 1) ≤ x
    · have hb8 : ¬ bits x ≤ 8 * n - 1 := fun hc =>
        absurd ((bits_le_iff x _ hx).1 hc) (by omega)
      have hk : lostBytes x = n - 2 := by unfold lostBytes; omega
      rw [if_pos h, hk]
    · have hb8 : bits x ≤ 8 * n - 1 := (bits_le_iff x _ hx).2 (by omega)
      have hk : lostBytes x = n - 3 := by unfold lostBytes; omega
      rw [if_neg h, hk]

theorem recode_le (x : Nat) (hx : x < 2 ^ 256) : recode x ≤ x := by
  rw [recode_eq x hx]
  exact Nat.div_mul_le_self _ _

theorem lostBytes_mono (x y : Nat) (hy : y < 2 ^ 256) (hxy : x ≤ y) :
    lostBytes x ≤ lostBytes y := by
  have := bits_mono x y hy hxy
  unfold lostBytes
  omega

theorem two_pow_le_of_lostBytes (y : Nat) (hk : 0 < lostBytes y) :
    2 ^ (8 * lostBytes y + 15) ≤ y := by
  have h0 : bits y ≠ 0 := by unfold lostBytes at hk; omega
  refine le_trans (Nat.pow_le_pow_right (by norm_num) ?_) (two_pow_le_of_bits y h0)
  unfold lostBytes at hk ⊢
  omega

theorem lt_two_pow_of_lostBytes (x : Nat) (hx : x < 2 ^ 256) :
    x < 2 ^ (8 * lostBytes x + 23) := by
  refine lt_of_lt_of_le (lt_two_pow_bits x hx) (Nat.pow_le_pow_right (by norm_num) ?_)
  unfold lostBytes
  omega

/-- The kept part of a magnitude is at least any multiple-of-`2 ^ j` lower bound. -/
theorem le_div_mul_of_pow_le (y j e : Nat) (hje : j ≤ e) (h : 2 ^ e ≤ y) :
    2 ^ e ≤ y / 2 ^ j * 2 ^ j := by
  have hpos : 0 < 2 ^ j := Nat.pos_pow_of_pos _ (by norm_num)
  have hsplit : 2 ^ e = 2 ^ (e - j) * 2 ^ j := by
    rw [← pow_add]; congr 1; omega
  rw [hsplit] at h ⊢
  exact Nat.mul_le_mul_right _ ((Nat.le_div_iff_mul_le hpos).2 h)

theorem recode_mono (x y : Nat) (hy : y < 2 ^ 256) (hxy : x ≤ y) : recode x ≤ recode y := by
  have hx : x < 2 ^ 256 := lt_of_le_of_lt hxy hy
  have hk := lostBytes_mono x y hy hxy
  rcases Nat.eq_or_lt_of_le hk with heq | hlt
  · rw [recode_eq x hx, recode_eq y hy, heq]
    exact Nat.mul_le_mul_right _ (Nat.div_le_div_right hxy)
  · have h1 : recode x < 2 ^ (8 * lostBytes x + 23) :=
      lt_of_le_of_lt (recode_le x hx) (lt_two_pow_of_lostBytes x hx)
    have h2 : 2 ^ (8 * lostBytes x + 23) ≤ 2 ^ (8 * lostBytes y + 15) :=
      Nat.pow_le_pow_right (by norm_num) (by omega)
    have h3 : 2 ^ (8 * lostBytes y + 15) ≤ recode y := by
      rw [recode_eq y hy]
      exact le_div_mul_of_pow_le y _ _ (by omega) (two_pow_le_of_lostBytes y (by omega))
    omega

theorem bits_recode (x : Nat) (hx : x < 2 ^ 256) : bits (recode x) = bits x := by
  have hle := recode_le x hx
  have h1 : bits (recode x) ≤ bits x := bits_mono _ _ hx hle
  by_cases hk : lostBytes x = 0
  · have : recode x = x := by rw [recode_eq x hx, hk]; simp
    rw [this]
  · have h0 : bits x ≠ 0 := by unfold lostBytes at hk; omega
    have h2 : 2 ^ (bits x - 1) ≤ recode x := by
      rw [recode_eq x hx]
      refine le_div_mul_of_pow_le x _ _ ?_ (two_pow_le_of_bits x h0)
      unfold lostBytes at hk ⊢
      omega
    have h3 : ¬ bits (recode x) ≤ bits x - 1 := fun hc =>
      absurd ((bits_le_iff _ _ (lt_of_le_of_lt hle hx)).1 hc) (by omega)
    omega

theorem recode_idem (x : Nat) (hx : x < 2 ^ 256) : recode (recode x) = recode x := by
  have hle := recode_le x hx
  have hk : lostBytes (recode x) = lostBytes x := by
    unfold lostBytes; rw [bits_recode x hx]
  rw [recode_eq (recode x) (lt_of_le_of_lt hle hx), hk, recode_eq x hx]
  rw [Nat.mul_div_cancel _ (Nat.pos_pow_of_pos _ (by norm_num))]

theorem SetCompact_value_eq (c : Nat) :
    (SetCompact c).value =
      if (c % 2 ^ 32) >>> 24 ≤ 3 then
        (c % 2 ^ 32 &&& 0x007fffff) >>> (8 * (3 - (c % 2 ^ 32) >>> 24))
      else ((c % 2 ^ 32 &&& 0x007fffff) <<< (8 * ((c % 2 ^ 32) >>> 24 - 3))) % 2 ^ 256 := by
  unfold SetCompact
  simp only []
  split_ifs <;> rfl

theorem SetCompact_value_lt (c : Nat) : (SetCompact c).value < 2 ^ 256 := by
  rw [SetCompact_value_eq]
  have h1 : c % 2 ^ 32 &&& 0x007fffff ≤ 0x007fffff := Nat.and_le_right
  generalize c % 2 ^ 32 &&& 0x007fffff = w at h1
  generalize (c % 2 ^ 32) >>> 24 = n
  split_ifs with h
  · rw [Nat.shiftRight_eq_div_pow]
    have h2 : w / 2 ^ (8 * (3 - n)) ≤ w := Nat.div_le_self _ _
    have h3 : (0x007fffff : Nat) < 2 ^ 256 := by norm_num
    omega
  · exact Nat.mod_lt _ (by norm_num)

/-- A decoded magnitude is never the all-ones word, so its successor is a hash. -/
theorem SetCompact_value_succ_lt (c : Nat) : (SetCompact c).value + 1 < 2 ^ 256 := by
  rw [SetCompact_value_eq]
  have h1 : c % 2 ^ 32 &&& 0x007fffff ≤ 0x007fffff := Nat.and_le_right
  generalize c % 2 ^ 32 &&& 0x007fffff = w at h1
  generalize (c % 2 ^ 32) >>> 24 = n
  split_ifs with h
  · rw [Nat.shiftRight_eq_div_pow]
    have h2 : w / 2 ^ (8 * (3 - n)) ≤ w := Nat.div_le_self _ _
    have h3 : (0x007fffff : Nat) + 1 < 2 ^ 256 := by norm_num
    omega
  · rw [Nat.shiftLeft_eq]
    have hk : 8 * (n - 3) = 8 * (n - 4) + 8 := by omega
    have hdvd : 256 ∣ w * 2 ^ (8 * (n - 3)) := by
      rw [hk, pow_add]
      exact Dvd.dvd.mul_left (Dvd.dvd.mul_left (by norm_num) _) _
    have h256 : (256 : Nat) ∣ 2 ^ 256 := by norm_num
    have hmod : w * 2 ^ (8 * (n - 3)) % 2 ^ 256 % 256 = 0 := by
      rw [Nat.mod_mod_of_dvd _ h256]
      exact Nat.mod_eq_zero_of_dvd hdvd
    have hlt : w * 2 ^ (8 * (n - 3)) % 2 ^ 256 < 2 ^ 256 := Nat.mod_lt _ (by norm_num)
    generalize w * 2 ^ (8 * (n - 3)) % 2 ^ 256 = v at hmod hlt
    omega

theorem toUint64_of_nonneg (x : Int) (h0 : 0 ≤ x) (h1 : x < 2 ^ 64) : toUint64 x = x.toNat := by
  unfold toUint64
  rw [Int.emod_eq_of_lt h0 h1]

theorem toUint32_of_nonneg (x : Int) (h0 : 0 ≤ x) (h1 : x < 2 ^ 32) : toUint32 x = x.toNat := by
  unfold toUint32
  rw [Int.emod_eq_of_lt h0 h1]

theorem toUint32_eq_mod (x : Int) (h0 : 0 ≤ x) : toUint32 x = x.toNat % 2 ^ 32 := by
  unfold toUint32
  omega

theorem UintToArith256_lt (a : Nat) : UintToArith256 a < 2 ^ 256 :=
  Nat.mod_lt _ (by norm_num)

/-! ## Lemmas on the chain and on `GoldenRiver` -/

theorem nHeight_root (d : BlockData) : (CBlockIndex.root d).nHeight = d.nHeight := rfl

theorem nHeight_node (d : BlockData) (p : CBlockIndex) :
    (CBlockIndex.node d p).nHeight = d.nHeight := rfl

theorem wellFormed_nHeight_nonneg (b : CBlockIndex) (hw : b.wellFormed = true) :
    0 ≤ b.nHeight := by
  induction b with
  | root d =>
    simp [CBlockIndex.wellFormed] at hw
    rw [nHeight_root, hw]
  | node d p ih =>
    simp [CBlockIndex.wellFormed] at hw
    have := ih hw.2
    rw [nHeight_node, hw.1]
    omega

/-- On a well-formed chain every height up to the tip's is reached by following
parent links. -/
theorem back_of_wellFormed (b : CBlockIndex) (hw : b.wellFormed = true) (k : Nat)
    (hk : (k : Int) ≤ b.nHeight) :
    ∃ a, CBlockIndex.back k b = some a ∧ a.nHeight = b.nHeight - k := by
  induction b generalizing k with
  | root d =>
    simp [CBlockIndex.wellFormed] at hw
    rw [nHeight_root, hw] at hk
    have : k = 0 := by omega
    subst this
    exact ⟨_, rfl, by simp⟩
  | node d p ih =>
    simp [CBlockIndex.wellFormed] at hw
    cases k with
    | zero => exact ⟨_, rfl, by simp⟩
    | succ k =>
      rw [nHeight_node, hw.1] at hk
      have hk' : (k : Int) ≤ p.nHeight := by
        push_cast at hk
        omega
      obtain ⟨a, ha, hh⟩ := ih hw.2 k hk'
      refine ⟨a, ha, ?_⟩
      rw [nHeight_node, hw.1, hh]
      push_cast
      omega

theorem mul256_lt (a b : Nat) : mul256 a b < 2 ^ 256 := Nat.mod_lt _ (by norm_num)

theorem mul256_div_le (a b c : Nat) : mul256 a b / c ≤ a * b / c :=
  Nat.div_le_div_right (Nat.mod_le _ _)

theorem mul256_div_lt (a b c : Nat) : mul256 a b / c < 2 ^ 256 :=
  lt_of_le_of_lt (Nat.div_le_self _ _) (mul256_lt a b)

/-- The value `GoldenRiver` returns, when it returns. -/
theorem GoldenRiver_eq_some (pindexLast : CBlockIndex) (params : Params) (r : Nat)
    (h : GoldenRiver pindexLast params = some r) :
    ∃ medTime, defendedMedTime (collect pindexLast).last60BlockTimes (differencesOf pindexLast)
        = some medTime ∧
      r = retarget pindexLast.nBits (collect pindexLast).nbits60ago
        (collect pindexLast).nbits240ago
        (bandedMedTime (averageTime (differencesOf pindexLast)) medTime
          (halfAdjust (differencesOf pindexLast)))
        (halfAdjust (differencesOf pindexLast)) (UintToArith256 params.powScryptLimit) := by
  unfold GoldenRiver at h
  simp only [] at h
  split at h
  · exact absurd h (by simp)
  · split at h
    · exact absurd h (by simp)
    · rename_i medTime hm
      exact ⟨medTime, hm, (Option.some.inj h).symm⟩

/-- The last two steps of `retarget`: the cap at the limit and the encoding. -/
theorem retarget_decoded_le_limit (nBits nbits60ago nbits240ago : Nat) (medTime : Int)
    (didHalfAdjust : Bool) (limit : Nat) (hL : limit < 2 ^ 256) :
    (SetCompact (retarget nBits nbits60ago nbits240ago medTime didHalfAdjust limit)).value
      ≤ limit := by
  have key : ∀ v : Nat, recode (if v > limit then limit else v) ≤ limit := by
    intro v
    split_ifs with hv
    · exact recode_le _ hL
    · exact le_trans (recode_le _ (by omega)) (by omega)
  exact key _

/-- The three clamps of `retarget` without half-adjust bound the result from above. -/
theorem clamp_upper (v0 last b60 b240 limit : Nat) (hlast : last < 2 ^ 256)
    (h60 : b60 < 2 ^ 256) (h240 : b240 < 2 ^ 256) (hv0 : v0 < 2 ^ 256) :
    recode
      (if (if (if (if v0 > last then recode last else v0) < b60 then recode b60
            else (if v0 > last then recode last else v0)) < b240 then recode b240
          else (if (if v0 > last then recode last else v0) < b60 then recode b60
            else (if v0 > last then recode last else v0))) > limit then limit
        else (if (if (if v0 > last then recode last else v0) < b60 then recode b60
            else (if v0 > last then recode last else v0)) < b240 then recode b240
          else (if (if v0 > last then recode last else v0) < b60 then recode b60
            else (if v0 > last then recode last else v0))))
      ≤ max last (max b60 b240) := by
  have e1 := recode_le last hlast
  have e2 := recode_le b60 h60
  have e3 := recode_le b240 h240
  generalize recode last = r1 at e1
  generalize recode b60 = r2 at e2
  generalize recode b240 = r3 at e3
  have hle : ∀ v, v < 2 ^ 256 → v ≤ max last (max b60 b240) →
      recode v ≤ max last (max b60 b240) := fun v hv hm => le_trans (recode_le v hv) hm
  apply hle
  · split_ifs <;> omega
  · split_ifs <;> omega

/-- The clamps of `retarget` bound the result from below by each history bound,
recoded and capped at the recoded limit. -/
theorem clamp_lower (v1 b60 b240 limit : Nat) (h60 : b60 < 2 ^ 256) (h240 : b240 < 2 ^ 256)
    (hL : limit < 2 ^ 256) :
    min (recode b60) (recode limit) ≤
      recode
        (if (if (if v1 < b60 then recode b60 else v1) < b240 then recode b240
            else (if v1 < b60 then recode b60 else v1)) > limit then limit
          else (if (if v1 < b60 then recode b60 else v1) < b240 then recode b240
            else (if v1 < b60 then recode b60 else v1))) ∧
    min (recode b240) (recode limit) ≤
      recode
        (if (if (if v1 < b60 then recode b60 else v1) < b240 then recode b240
            else (if v1 < b60 then recode b60 else v1)) > limit then limit
          else (if (if v1 < b60 then recode b60 else v1) < b240 then recode b240
            else (if v1 < b60 then recode b60 else v1))) := by
  have e2 := recode_le b60 h60
  have e3 := recode_le b240 h240
  -- after the 60-block step
  generalize hv2 : (if v1 < b60 then recode b60 else v1) = v2
  have g2 : recode b60 ≤ v2 := by
    rw [← hv2]; split_ifs <;> omega
  -- after the 240-block step
  generalize hv3 : (if v2 < b240 then recode b240 else v2) = v3
  have g3 : recode b240 ≤ v3 := by
    rw [← hv3]; split_ifs <;> omega
  have g3' : recode b60 ≤ v3 := by
    rw [← hv3]
    split_ifs with hc
    · have := recode_mono (recode b60) b240 h240 (by omega)
      rw [recode_idem b60 h60] at this
      exact this
    · exact g2
  split_ifs with hc
  · exact ⟨Nat.min_le_right _ _, Nat.min_le_right _ _⟩
  · have hv : v3 < 2 ^ 256 := by omega
    have m60 := recode_mono (recode b60) v3 hv g3'
    have m240 := recode_mono (recode b240) v3 hv g3
    rw [recode_idem b60 h60] at m60
    rw [recode_idem b240 h240] at m240
    exact ⟨le_trans (Nat.min_le_left _ _) m60, le_trans (Nat.min_le_left _ _) m240⟩

/-- State of the collection loop after `c` iterations. -/
theorem collect_fold (b : CBlockIndex) (c : Nat) :
    ((List.range c).foldl collectStep
        { tblock2 := b, last60BlockTimes := [], last120BlockTimes := [],
          nbits60ago := 0, nbits240ago := 0 }).tblock2 = stepBack^[c] b ∧
    ((List.range c).foldl collectStep
        { tblock2 := b, last60BlockTimes := [], last120BlockTimes := [],
          nbits60ago := 0, nbits240ago := 0 }).nbits60ago =
      (if 60 < c then (stepBack^[60] b).nBits else 0) ∧
    ((List.range c).foldl collectStep
        { tblock2 := b, last60BlockTimes := [], last120BlockTimes := [],
          nbits60ago := 0, nbits240ago := 0 }).nbits240ago =
      (if 240 < c then (stepBack^[240] b).nBits else 0) := by
  induction c with
  | zero => simp
  | succ c ih =>
    obtain ⟨i1, i2, i3⟩ := ih
    rw [List.range_succ, List.foldl_append]
    simp only [List.foldl_cons, List.foldl_nil]
    refine ⟨?_, ?_, ?_⟩
    · show stepBack _ = _
      rw [i1, Function.iterate_succ_apply']
    · show (if c = 60 then _ else _) = _
      rw [i1, i2]
      by_cases h : c = 60
      · subst h
        rw [if_pos rfl, if_pos (by omega)]
      · have : (60 < c + 1) = (60 < c) := by
          apply propext; omega
        simp only [h, if_false, this]
    · show (if c = 240 then _ else _) = _
      rw [i1, i3]
      by_cases h : c = 240
      · subst h
        rw [if_pos rfl, if_pos (by omega)]
      · have : (240 < c + 1) = (240 < c) := by
          apply propext; omega
        simp only [h, if_false, this]

theorem stepBack_iterate_of_back (k : Nat) (b a : CBlockIndex)
    (h : CBlockIndex.back k b = some a) : stepBack^[k] b = a := by
  induction k generalizing b with
  | zero =>
    simp [CBlockIndex.back] at h
    simpa using h
  | succ k ih =>
    cases b with
    | root d => simp [CBlockIndex.back] at h
    | node d p =>
      rw [Function.iterate_succ_apply]
      exact ih p (by simpa [CBlockIndex.back] using h)

theorem nbits60ago_eq (b : CBlockIndex) : (collect b).nbits60ago = (blockAgo 60 b).nBits := by
  have := (collect_fold b 241).2.1
  unfold collect blockAgo
  rw [this, if_pos (by omega)]

theorem nbits240ago_eq (b : CBlockIndex) : (collect b).nbits240ago = (blockAgo 240 b).nBits := by
  have := (collect_fold b 241).2.2
  unfold collect blockAgo
  rw [this, if_pos (by omega)]

theorem blockAgo_of_back (k : Nat) (b a : CBlockIndex) (h : CBlockIndex.back k b = some a) :
    blockAgo k b = a := stepBack_iterate_of_back k b a h

theorem retarget_noHalf (nBits nbits60ago nbits240ago : Nat) (medTime : Int) (limit : Nat) :
    (SetCompact (retarget nBits nbits60ago nbits240ago medTime false limit)).value ≤
      max (mul256 (SetCompact nBits).value 10 / 8)
        (max (mul256 (SetCompact nbits60ago).value 100 / 102)
          (mul256 (SetCompact nbits240ago).value 100 / 408)) := by
  have key := clamp_upper (mul256 (SetCompact nBits).value (toUint32 (medTime * 60)) / 7200)
    (mul256 (SetCompact nBits).value 10 / 8)
    (mul256 (SetCompact nbits60ago).value 100 / 102)
    (mul256 (SetCompact nbits240ago).value 100 / 408) limit
    (mul256_div_lt _ _ _) (mul256_div_lt _ _ _) (mul256_div_lt _ _ _) (mul256_div_lt _ _ _)
  unfold retarget
  simp only [Bool.not_false, Bool.true_and, decide_eq_true_eq]
  exact key

theorem retarget_lower (nBits nbits60ago nbits240ago : Nat) (medTime : Int)
    (didHalfAdjust : Bool) (limit : Nat) (hL : limit < 2 ^ 256) :
    min (recode (mul256 (SetCompact nbits60ago).value 100 / 102)) (recode limit) ≤
      (SetCompact (retarget nBits nbits60ago nbits240ago medTime didHalfAdjust limit)).value ∧
    min (recode (mul256 (SetCompact nbits240ago).value 100 / 408)) (recode limit) ≤
      (SetCompact (retarget nBits nbits60ago nbits240ago medTime didHalfAdjust limit)).value :=
  clamp_lower _ _ _ limit (mul256_div_lt _ _ _) (mul256_div_lt _ _ _) hL

/-! ## Evaluations on the sample chains -/

theorem GoldenRiver_fastChain : GoldenRiver fastChain sampleParams = some 504344494 := by
  decide

theorem GoldenRiver_warmupChain : GoldenRiver warmupChain sampleParams = some 504344494 := by
  decide

theorem GoldenRiver_steepChain : GoldenRiver steepChain sampleParams = some 504344494 := by
  decide

theorem noHalfAdjust_fastChain :
    ¬ (averageTime (differencesOf fastChain) ≥ 180 ∧
      idx (differencesOf fastChain).last119TimeDifferences 0 ≥ 1200 ∧
      idx (differencesOf fastChain).last119TimeDifferences 1 ≥ 1200) := by
  decide

/-! ## The properties -/

/-- C1. `CheckProofOfWork` accepts exactly when the decoded target is neither negative
nor overflowing, is non-zero, is at most the standard limit and the hash is at
most the target; so for a valid target `T` the hash `T` passes and `T + 1` fails. -/
theorem C1_CheckProofOfWork_iff (hash nBits : Nat) (params : Params) :
    (CheckProofOfWork hash nBits params = true ↔
      ((SetCompact nBits).fNegative = false ∧ (SetCompact nBits).fOverflow = false ∧
        (SetCompact nBits).value ≠ 0 ∧
        (SetCompact nBits).value ≤ UintToArith256 params.powLimit ∧
        UintToArith256 hash ≤ (SetCompact nBits).value)) ∧
    (((SetCompact nBits).fNegative = false ∧ (SetCompact nBits).fOverflow = false ∧
        (SetCompact nBits).value ≠ 0 ∧
        (SetCompact nBits).value ≤ UintToArith256 params.powLimit) →
      CheckProofOfWork (SetCompact nBits).value nBits params = true ∧
        CheckProofOfWork ((SetCompact nBits).value + 1) nBits params = false) := by
  have hiff : ∀ h : Nat, CheckProofOfWork h nBits params = true ↔
      ((SetCompact nBits).fNegative = false ∧ (SetCompact nBits).fOverflow = false ∧
        (SetCompact nBits).value ≠ 0 ∧
        (SetCompact nBits).value ≤ UintToArith256 params.powLimit ∧
        UintToArith256 h ≤ (SetCompact nBits).value) := by
    intro h
    unfold CheckProofOfWork
    simp only []
    cases (SetCompact nBits).fNegative <;> cases (SetCompact nBits).fOverflow <;>
      by_cases h0 : (SetCompact nBits).value = 0 <;>
      by_cases h1 : (SetCompact nBits).value > UintToArith256 params.powLimit <;>
      by_cases h2 : UintToArith256 h > (SetCompact nBits).value <;>
      (simp [h0, h1, h2]; try omega)
  refine ⟨hiff hash, ?_⟩
  rintro ⟨hn, ho, hz, hl⟩
  have hlt := SetCompact_value_succ_lt nBits
  constructor
  · refine (hiff _).2 ⟨hn, ho, hz, hl, ?_⟩
    unfold UintToArith256
    rw [Nat.mod_eq_of_lt (by omega)]
  · cases hc : CheckProofOfWork ((SetCompact nBits).value + 1) nBits params
    · rfl
    · have := ((hiff _).1 hc).2.2.2.2
      unfold UintToArith256 at this
      rw [Nat.mod_eq_of_lt hlt] at this
      omega

/-- C1 on the sample limit: the hash equal to the target passes, its successor fails. -/
theorem C1_witness :
    CheckProofOfWork (SetCompact 0x1e0fffff).value 0x1e0fffff sampleParams = true ∧
    CheckProofOfWork ((SetCompact 0x1e0fffff).value + 1) 0x1e0fffff sampleParams = false :=
  (C1_CheckProofOfWork_iff 0 0x1e0fffff sampleParams).2 (by decide)

/-- C2 fails for a target timespan of `2 ^ 34` seconds: the clamped timespan is
`2 ^ 32`, whose low 32 bits are zero, so `CalculateNextWorkRequired` returns the compact
target 0, where the product with the whole clamped timespan, which fits 256 bits, gives
a quarter of the previous target, `0x1c3fffc0`. -/
theorem C2_counterexample :
    (0 < wideParams.nPowTargetTimespan ∧ wideParams.nPowTargetTimespan * 4 < 2 ^ 63 ∧
      wideParams.fPowNoRetargeting = false) ∧
    CalculateNextWorkRequired (uniformChain 60 0x1d00ffff 59) 0 wideParams = some 0 ∧
    (SetCompact 0x1d00ffff).value * 2 ^ 32 < 2 ^ 256 ∧
    ClassicRetargetSpec (uniformChain 60 0x1d00ffff 59).nBits
      (uniformChain 60 0x1d00ffff 59).GetBlockTime 0 wideParams = 0x1c3fffc0 := by
  decide

/-- C2, amended. With a positive target timespan whose fourfold fits `int64_t`,
`CalculateNextWorkRequired` returns the previous bits when retargeting is off and
otherwise the encoding of the capped quotient of the 256-bit product of the decoded
previous target and the low 32 bits of the clamped timespan
(`ClassicRetargetLow32`); when four times the target timespan is below `2 ^ 32` this
is the product with the clamped timespan itself, as worded in `ClassicRetargetSpec`. -/
theorem C2_CalculateNextWorkRequired_eq (pindexLast : CBlockIndex) (nFirstBlockTime : Int)
    (params : Params) (hT : 0 < params.nPowTargetTimespan)
    (hov : params.nPowTargetTimespan * 4 < 2 ^ 63) :
    CalculateNextWorkRequired pindexLast nFirstBlockTime params =
      some (ClassicRetargetLow32 pindexLast.nBits pindexLast.GetBlockTime nFirstBlockTime
        params) ∧
    (params.nPowTargetTimespan * 4 < 2 ^ 32 →
      CalculateNextWorkRequired pindexLast nFirstBlockTime params =
        some (ClassicRetargetSpec pindexLast.nBits pindexLast.GetBlockTime nFirstBlockTime
          params)) := by
  have hlo : 0 ≤ params.nPowTargetTimespan.tdiv 4 :=
    Int.tdiv_nonneg (le_of_lt hT) (by norm_num)
  have hlo4 : params.nPowTargetTimespan.tdiv 4 ≤ params.nPowTargetTimespan * 4 := by
    rw [Int.tdiv_eq_ediv (le_of_lt hT) (by norm_num)]
    omega
  have hmain : CalculateNextWorkRequired pindexLast nFirstBlockTime params =
      some (ClassicRetargetLow32 pindexLast.nBits pindexLast.GetBlockTime nFirstBlockTime
        params) := by
    unfold CalculateNextWorkRequired ClassicRetargetLow32
    by_cases hno : params.fPowNoRetargeting = true
    · simp [hno]
    · simp only [hno, if_false, Bool.false_eq_true]
      -- the two sequential guards are the clamp
      have hclamp :
          (if (if pindexLast.GetBlockTime - nFirstBlockTime < params.nPowTargetTimespan.tdiv 4
                then params.nPowTargetTimespan.tdiv 4
                else pindexLast.GetBlockTime - nFirstBlockTime) > params.nPowTargetTimespan * 4
            then params.nPowTargetTimespan * 4
            else (if pindexLast.GetBlockTime - nFirstBlockTime <
                  params.nPowTargetTimespan.tdiv 4
                then params.nPowTargetTimespan.tdiv 4
                else pindexLast.GetBlockTime - nFirstBlockTime)) =
          min (max (pindexLast.GetBlockTime - nFirstBlockTime)
              (params.nPowTargetTimespan.tdiv 4))
            (params.nPowTargetTimespan * 4) := by
        generalize pindexLast.GetBlockTime - nFirstBlockTime = a
        generalize params.nPowTargetTimespan.tdiv 4 = lo at hlo hlo4
        generalize params.nPowTargetTimespan * 4 = hi at hlo4
        split_ifs <;> omega
      rw [hclamp]
      generalize hA : min (max (pindexLast.GetBlockTime - nFirstBlockTime)
        (params.nPowTargetTimespan.tdiv 4)) (params.nPowTargetTimespan * 4) = A
      have hA0 : 0 ≤ A := by rw [← hA]; omega
      rw [toUint32_eq_mod A hA0,
        toUint64_of_nonneg _ (le_of_lt hT) (by omega)]
      have hTn : params.nPowTargetTimespan.toNat ≠ 0 := by omega
      unfold div256 mul256 UintToArith256
      simp only [hTn, if_false]
      congr 2
      split_ifs with h <;> omega
  refine ⟨hmain, fun h32 => ?_⟩
  rw [hmain]
  unfold ClassicRetargetLow32 ClassicRetargetSpec
  by_cases hno : params.fPowNoRetargeting = true
  · simp [hno]
  · simp only [hno, if_false, Bool.false_eq_true]
    generalize hA : min (max (pindexLast.GetBlockTime - nFirstBlockTime)
      (params.nPowTargetTimespan.tdiv 4)) (params.nPowTargetTimespan * 4) = A
    have hA0 : 0 ≤ A := by rw [← hA]; omega
    have hA1 : A < 2 ^ 32 := by rw [← hA]; omega
    rw [Nat.mod_eq_of_lt (by omega : A.toNat < 2 ^ 32)]

/-- C2, amended, on a sixty-entry chain under the classic parameters, where four times
the target timespan is below `2 ^ 32`. -/
theorem C2_witness :
    (0 < classicParams.nPowTargetTimespan ∧ classicParams.nPowTargetTimespan * 4 < 2 ^ 63 ∧
      classicParams.nPowTargetTimespan * 4 < 2 ^ 32) ∧
    CalculateNextWorkRequired (uniformChain 60 0x1e0fffff 59) 0 classicParams =
      some (ClassicRetargetLow32 (uniformChain 60 0x1e0fffff 59).nBits
        (uniformChain 60 0x1e0fffff 59).GetBlockTime 0 classicParams) ∧
    CalculateNextWorkRequired (uniformChain 60 0x1e0fffff 59) 0 classicParams =
      some (ClassicRetargetSpec (uniformChain 60 0x1e0fffff 59).nBits
        (uniformChain 60 0x1e0fffff 59).GetBlockTime 0 classicParams) :=
  ⟨by decide,
    (C2_CalculateNextWorkRequired_eq (uniformChain 60 0x1e0fffff 59) 0 classicParams
      (by decide) (by decide)).1,
    (C2_CalculateNextWorkRequired_eq (uniformChain 60 0x1e0fffff 59) 0 classicParams
      (by decide) (by decide)).2 (by decide)⟩

/-- C3. Whenever `GoldenRiver` returns a compact target, its decoded magnitude is at
most the loose proof-of-work limit. -/
theorem C3_GoldenRiver_le_loose_limit (pindexLast : CBlockIndex) (params : Params) (r : Nat)
    (h : GoldenRiver pindexLast params = some r) :
    (SetCompact r).value ≤ UintToArith256 params.powScryptLimit := by
  obtain ⟨medTime, -, hr⟩ := GoldenRiver_eq_some pindexLast params r h
  rw [hr]
  exact retarget_decoded_le_limit _ _ _ _ _ _ (UintToArith256_lt _)

/-- C3 on the fast chain. -/
theorem C3_witness : (SetCompact 504344494).value ≤ UintToArith256 sampleParams.powScryptLimit :=
  C3_GoldenRiver_le_loose_limit fastChain sampleParams 504344494 GoldenRiver_fastChain

/-- C4 fails with retargeting off: the previous bits come back unchanged although
they decode above the standard limit. -/
theorem C4_counterexample :
    CalculateNextWorkRequired (uniformChain 60 0x1e0fffff 59) 0 noRetargetParams =
      some 0x1e0fffff ∧
    UintToArith256 noRetargetParams.powLimit < (SetCompact 0x1e0fffff).value := by
  decide

/-- C4, amended. With retargeting on and a non-zero `int64_t` target timespan,
`CalculateNextWorkRequired` returns a compact target whose decoded magnitude is
at most the standard proof-of-work limit. -/
theorem C4_CalculateNextWorkRequired_le_limit (pindexLast : CBlockIndex)
    (nFirstBlockTime : Int) (params : Params) (hno : params.fPowNoRetargeting = false)
    (hT : params.nPowTargetTimespan ≠ 0)
    (hrange : -2 ^ 63 ≤ params.nPowTargetTimespan ∧ params.nPowTargetTimespan < 2 ^ 63) :
    ∃ r, CalculateNextWorkRequired pindexLast nFirstBlockTime params = some r ∧
      (SetCompact r).value ≤ UintToArith256 params.powLimit := by
  have hd : toUint64 params.nPowTargetTimespan ≠ 0 := by
    unfold toUint64
    omega
  have hL := UintToArith256_lt params.powLimit
  unfold CalculateNextWorkRequired div256
  simp only [hno, hd, if_false, Bool.false_eq_true]
  have key : ∀ v : Nat, recode (if v > UintToArith256 params.powLimit then
      UintToArith256 params.powLimit else v) ≤ UintToArith256 params.powLimit := by
    intro v
    split_ifs with hv
    · exact recode_le _ hL
    · exact le_trans (recode_le _ (by omega)) (by omega)
  exact ⟨_, rfl, key _⟩

/-- C4, amended, on a sixty-entry chain under the classic parameters. -/
theorem C4_witness :
    (classicParams.fPowNoRetargeting = false ∧ classicParams.nPowTargetTimespan ≠ 0) ∧
    ∃ r, CalculateNextWorkRequired (uniformChain 60 0x1e0fffff 59) 0 classicParams = some r ∧
      (SetCompact r).value ≤ UintToArith256 classicParams.powLimit :=
  ⟨by decide,
    C4_CalculateNextWorkRequired_le_limit (uniformChain 60 0x1e0fffff 59) 0 classicParams
      (by decide) (by decide) (by decide)⟩

/-- C5 fails on the steep chain: no half-adjust, yet the bound 60 entries back lifts
the output above the previous target times 10 / 8. -/
theorem C5_counterexample :
    GoldenRiver steepChain sampleParams = some 504344494 ∧
    ¬ (averageTime (differencesOf steepChain) ≥ 180 ∧
      idx (differencesOf steepChain).last119TimeDifferences 0 ≥ 1200 ∧
      idx (differencesOf steepChain).last119TimeDifferences 1 ≥ 1200) ∧
    (SetCompact steepChain.nBits).value * 10 / 8 < (SetCompact 504344494).value :=
  ⟨GoldenRiver_steepChain, by decide, by decide⟩

/-- C5, amended. When `GoldenRiver` returns and no half-adjust occurred, the decoded
output is at most the largest of three bounds: the decoded previous target
times 10 / 8, the decoded target 60 entries back times 100 / 102, and the
decoded target 240 entries back times 100 / 408 (truncating divisions).  The
floor of 10 / 8 is applied first; either history bound may then raise the
target above it. -/
theorem C5_upper_bound_without_half_adjust (pindexLast : CBlockIndex) (params : Params)
    (r : Nat)
    (hno : ¬ (averageTime (differencesOf pindexLast) ≥ 180 ∧
      idx (differencesOf pindexLast).last119TimeDifferences 0 ≥ 1200 ∧
      idx (differencesOf pindexLast).last119TimeDifferences 1 ≥ 1200))
    (h : GoldenRiver pindexLast params = some r) :
    (SetCompact r).value ≤
      max ((SetCompact pindexLast.nBits).value * 10 / 8)
        (max ((SetCompact (blockAgo 60 pindexLast).nBits).value * 100 / 102)
          ((SetCompact (blockAgo 240 pindexLast).nBits).value * 100 / 408)) := by
  obtain ⟨medTime, -, hr⟩ := GoldenRiver_eq_some pindexLast params r h
  have hhalf : halfAdjust (differencesOf pindexLast) = false := by
    unfold halfAdjust
    by_contra hc
    apply hno
    simpa using hc
  rw [hhalf, nbits60ago_eq, nbits240ago_eq] at hr
  have key := retarget_noHalf pindexLast.nBits (blockAgo 60 pindexLast).nBits
    (blockAgo 240 pindexLast).nBits
    (bandedMedTime (averageTime (differencesOf pindexLast)) medTime false)
    (UintToArith256 params.powScryptLimit)
  rw [← hr] at key
  have a1 := mul256_div_le (SetCompact pindexLast.nBits).value 10 8
  have a2 := mul256_div_le (SetCompact (blockAgo 60 pindexLast).nBits).value 100 102
  have a3 := mul256_div_le (SetCompact (blockAgo 240 pindexLast).nBits).value 100 408
  omega

/-- C5, amended, on the fast chain. -/
theorem C5_witness :
    (SetCompact 504344494).value ≤
      max ((SetCompact fastChain.nBits).value * 10 / 8)
        (max ((SetCompact (blockAgo 60 fastChain).nBits).value * 100 / 102)
          ((SetCompact (blockAgo 240 fastChain).nBits).value * 100 / 408)) :=
  C5_upper_bound_without_half_adjust fastChain sampleParams 504344494 noHalfAdjust_fastChain
    GoldenRiver_fastChain

/-- C6 fails on the fast chain: the output is the bound 60 entries back cut to compact
precision, which lies below the bound itself. -/
theorem C6_counterexample :
    GoldenRiver fastChain sampleParams = some 504344494 ∧
    CBlockIndex.back 60 fastChain = some (uniformChain 60 0x1e0fffff 180) ∧
    (SetCompact 504344494).value <
      (SetCompact (uniformChain 60 0x1e0fffff 180).nBits).value * 100 / 102 :=
  ⟨GoldenRiver_fastChain, by decide, by decide⟩

/-- C6, amended. When `GoldenRiver` returns, the decoded output is at least each
history bound after that bound is recoded (cut to compact precision) and capped
at the recoded loose limit; the bounds are the decoded targets 60 and 240
entries back times 100 / 102 and 100 / 408, the products taken in 256 bits. -/
theorem C6_lower_bounds (pindexLast : CBlockIndex) (params : Params) (r : Nat)
    (h : GoldenRiver pindexLast params = some r) :
    min (recode (mul256 (SetCompact (blockAgo 60 pindexLast).nBits).value 100 / 102))
        (recode (UintToArith256 params.powScryptLimit)) ≤ (SetCompact r).value ∧
    min (recode (mul256 (SetCompact (blockAgo 240 pindexLast).nBits).value 100 / 408))
        (recode (UintToArith256 params.powScryptLimit)) ≤ (SetCompact r).value := by
  obtain ⟨medTime, -, hr⟩ := GoldenRiver_eq_some pindexLast params r h
  rw [nbits60ago_eq, nbits240ago_eq] at hr
  rw [hr]
  exact retarget_lower _ _ _ _ _ _ (UintToArith256_lt _)

/-- C6, amended, on the fast chain. -/
theorem C6_witness :
    min (recode (mul256 (SetCompact (blockAgo 60 fastChain).nBits).value 100 / 102))
        (recode (UintToArith256 sampleParams.powScryptLimit)) ≤ (SetCompact 504344494).value ∧
    min (recode (mul256 (SetCompact (blockAgo 240 fastChain).nBits).value 100 / 408))
        (recode (UintToArith256 sampleParams.powScryptLimit)) ≤ (SetCompact 504344494).value :=
  C6_lower_bounds fastChain sampleParams 504344494 GoldenRiver_fastChain

/-- C7. For a next height from the fork height up to the fork height plus 239,
`GetNextWorkRequired` returns the compact form of the loose limit, whatever the
chain and the candidate header hold. -/
theorem C7_warmup_returns_loose_limit (pindexLast : CBlockIndex) (pblock : CBlockHeader)
    (params : Params) (h1 : params.goldcoinRBH ≤ pindexLast.nHeight + 1)
    (h2 : pindexLast.nHeight + 1 ≤ params.goldcoinRBH + 239) :
    GetNextWorkRequired pindexLast pblock params =
      some (GetCompact (UintToArith256 params.powScryptLimit)) := by
  unfold GetNextWorkRequired
  have h3 : pindexLast.nHeight + 1 ≤ params.goldcoinRBH + 240 := by omega
  simp [h1, h3]

/-- C7 on a chain whose next height is 101, with the fork at height 0. -/
theorem C7_witness :
    (sampleParams.goldcoinRBH ≤ (uniformChain 60 0x1e0fffff 100).nHeight + 1 ∧
      (uniformChain 60 0x1e0fffff 100).nHeight + 1 ≤ sampleParams.goldcoinRBH + 239) ∧
    GetNextWorkRequired (uniformChain 60 0x1e0fffff 100) sampleHeader sampleParams =
      some (GetCompact (UintToArith256 sampleParams.powScryptLimit)) :=
  ⟨by decide,
    C7_warmup_returns_loose_limit (uniformChain 60 0x1e0fffff 100) sampleHeader sampleParams
      (by decide) (by decide)⟩

/-- C8 fails at next height fork + 240: the loose limit is returned, while
`GoldenRiver` on the same tip gives another target. -/
theorem C8_counterexample :
    warmupChain.nHeight + 1 = sampleParams.goldcoinRBH + 240 ∧
    GetNextWorkRequired warmupChain sampleHeader sampleParams = some 504365055 ∧
    GoldenRiver warmupChain sampleParams = some 504344494 :=
  ⟨by decide, by decide, GoldenRiver_warmupChain⟩

/-- C8, amended. For a next height above the fork height plus 240,
`GetNextWorkRequired` is `GoldenRiver` on the same tip. -/
theorem C8_delegates_to_GoldenRiver (pindexLast : CBlockIndex) (pblock : CBlockHeader)
    (params : Params) (h : params.goldcoinRBH + 240 < pindexLast.nHeight + 1) :
    GetNextWorkRequired pindexLast pblock params = GoldenRiver pindexLast params := by
  unfold GetNextWorkRequired
  have h1 : pindexLast.nHeight + 1 ≥ params.goldcoinRBH := by omega
  have h2 : ¬ pindexLast.nHeight + 1 ≤ params.goldcoinRBH + 240 := by omega
  simp [h1, h2]

/-- C8, amended, on the fast chain, whose next height is fork + 241. -/
theorem C8_witness :
    sampleParams.goldcoinRBH + 240 < fastChain.nHeight + 1 ∧
    GetNextWorkRequired fastChain sampleHeader sampleParams =
      GoldenRiver fastChain sampleParams :=
  ⟨by decide, C8_delegates_to_GoldenRiver fastChain sampleHeader sampleParams (by decide)⟩

/-- C9. Before the fork and off an adjustment boundary, `GetNextWorkRequired` returns
the previous bits when minimum-difficulty blocks are not allowed, and the
compact standard limit when they are allowed and the candidate header is more
than two target spacings later than the tip. -/
theorem C9_off_boundary (pindexLast : CBlockIndex) (pblock : CBlockHeader) (params : Params)
    (interval : Int) (hI : params.DifficultyAdjustmentInterval = some interval)
    (hI0 : interval ≠ 0) (hpre : pindexLast.nHeight + 1 < params.goldcoinRBH)
    (hnot : ¬ interval ∣ pindexLast.nHeight + 1) :
    (params.fPowAllowMinDifficultyBlocks = false →
      GetNextWorkRequired pindexLast pblock params = some pindexLast.nBits) ∧
    (params.fPowAllowMinDifficultyBlocks = true →
      pblock.GetBlockTime > pindexLast.GetBlockTime + 2 * params.nPowTargetSpacing →
      GetNextWorkRequired pindexLast pblock params =
        some (GetCompact (UintToArith256 params.powLimit))) := by
  have hfork : ¬ pindexLast.nHeight + 1 ≥ params.goldcoinRBH := by omega
  have hmod : (pindexLast.nHeight + 1).tmod interval ≠ 0 := fun hc =>
    hnot (Int.dvd_of_tmod_eq_zero hc)
  constructor
  · intro hallow
    unfold GetNextWorkRequired
    simp [hfork, hI, hI0, hmod, hallow]
  · intro hallow htime
    have htime' : pblock.GetBlockTime > pindexLast.GetBlockTime + params.nPowTargetSpacing * 2 := by
      omega
    unfold GetNextWorkRequired
    simp [hfork, hI, hI0, hmod, hallow, htime']

/-- C9 on a chain whose next height is 59, with interval 60: without the
minimum-difficulty flag, and with it and a late candidate header. -/
theorem C9_witness :
    (classicParams.DifficultyAdjustmentInterval = some 60 ∧
      ¬ ((60 : Int) ∣ (uniformChain 60 0x1e0fffff 58).nHeight + 1) ∧
      sampleHeader.GetBlockTime >
        (uniformChain 60 0x1e0fffff 58).GetBlockTime + 2 * testnetParams.nPowTargetSpacing) ∧
    GetNextWorkRequired (uniformChain 60 0x1e0fffff 58) sampleHeader classicParams =
      some (uniformChain 60 0x1e0fffff 58).nBits ∧
    GetNextWorkRequired (uniformChain 60 0x1e0fffff 58) sampleHeader testnetParams =
      some (GetCompact (UintToArith256 testnetParams.powLimit)) :=
  ⟨by decide,
    (C9_off_boundary (uniformChain 60 0x1e0fffff 58) sampleHeader classicParams 60 (by decide)
      (by decide) (by decide) (by decide)).1 (by decide),
    (C9_off_boundary (uniformChain 60 0x1e0fffff 58) sampleHeader testnetParams 60 (by decide)
      (by decide) (by decide) (by decide)).2 (by decide) (by decide)⟩

/-- C10. Before the fork, on a well-formed chain whose next height is a multiple of
the positive adjustment interval `N`, the height `nHeight - (N - 1)` is not
negative, the tip has an ancestor at that height, and `GetNextWorkRequired`
is `CalculateNextWorkRequired` with that ancestor's timestamp. -/
theorem C10_on_boundary (pindexLast : CBlockIndex) (pblock : CBlockHeader) (params : Params)
    (N : Int) (hI : params.DifficultyAdjustmentInterval = some N) (hN : 0 < N)
    (hpre : pindexLast.nHeight + 1 < params.goldcoinRBH)
    (hmul : N ∣ pindexLast.nHeight + 1) (hw : pindexLast.wellFormed = true) :
    0 ≤ pindexLast.nHeight - (N - 1) ∧
    ∃ pindexFirst, pindexLast.GetAncestor (pindexLast.nHeight - (N - 1)) = some pindexFirst ∧
      pindexFirst.nHeight = pindexLast.nHeight - (N - 1) ∧
      GetNextWorkRequired pindexLast pblock params =
        CalculateNextWorkRequired pindexLast pindexFirst.GetBlockTime params := by
  have h0 := wellFormed_nHeight_nonneg pindexLast hw
  have hle : N ≤ pindexLast.nHeight + 1 := Int.le_of_dvd (by omega) hmul
  have hfirst : 0 ≤ pindexLast.nHeight - (N - 1) := by omega
  refine ⟨hfirst, ?_⟩
  obtain ⟨a, ha, hh⟩ := back_of_wellFormed pindexLast hw (N - 1).toNat (by omega)
  have hanc : pindexLast.GetAncestor (pindexLast.nHeight - (N - 1)) = some a := by
    unfold CBlockIndex.GetAncestor
    have hc : ¬ (pindexLast.nHeight - (N - 1) > pindexLast.nHeight ∨
        pindexLast.nHeight - (N - 1) < 0) := by omega
    rw [if_neg hc]
    have : (pindexLast.nHeight - (pindexLast.nHeight - (N - 1))).toNat = (N - 1).toNat := by
      congr 1; omega
    rw [this, ha]
  refine ⟨a, hanc, by rw [hh]; omega, ?_⟩
  have hfork : ¬ pindexLast.nHeight + 1 ≥ params.goldcoinRBH := by omega
  have hmod : (pindexLast.nHeight + 1).tmod N = 0 := Int.tmod_eq_zero_of_dvd hmul
  have hN0 : N ≠ 0 := by omega
  have hneg : ¬ pindexLast.nHeight - (N - 1) < 0 := by omega
  unfold GetNextWorkRequired
  simp [hfork, hI, hN0, hmod, hneg, hanc]

/-- C10 on a chain whose next height is 60, with interval 60. -/
theorem C10_witness :
    (uniformChain 60 0x1e0fffff 59).wellFormed = true ∧
    (60 : Int) ∣ (uniformChain 60 0x1e0fffff 59).nHeight + 1 ∧
    ∃ pindexFirst,
      (uniformChain 60 0x1e0fffff 59).GetAncestor ((uniformChain 60 0x1e0fffff 59).nHeight - (60 - 1))
        = some pindexFirst ∧
      pindexFirst.nHeight = (uniformChain 60 0x1e0fffff 59).nHeight - (60 - 1) ∧
      GetNextWorkRequired (uniformChain 60 0x1e0fffff 59) sampleHeader classicParams =
        CalculateNextWorkRequired (uniformChain 60 0x1e0fffff 59) pindexFirst.GetBlockTime
          classicParams :=
  ⟨by decide, by decide,
    (C10_on_boundary (uniformChain 60 0x1e0fffff 59) sampleHeader classicParams 60 (by decide)
      (by decide) (by decide) (by decide) (by decide)).2⟩

/-! ## Lemmas on the loops of `GoldenRiver` -/

/-- Timestamps gathered by the collection loop after `c` iterations. -/
theorem collect_fold_times (b : CBlockIndex) (c : Nat) :
    ((List.range c).foldl collectStep
        { tblock2 := b, last60BlockTimes := [], last120BlockTimes := [],
          nbits60ago := 0, nbits240ago := 0 }).last60BlockTimes =
      (List.range (min c 60)).map (fun i => (blockAgo i b).GetBlockTime) ∧
    ((List.range c).foldl collectStep
        { tblock2 := b, last60BlockTimes := [], last120BlockTimes := [],
          nbits60ago := 0, nbits240ago := 0 }).last120BlockTimes =
      (List.range (min c 120)).map (fun i => (blockAgo i b).GetBlockTime) := by
  induction c with
  | zero => simp
  | succ c ih =>
    obtain ⟨i1, i2⟩ := ih
    have it := (collect_fold b c).1
    rw [List.range_succ, List.foldl_append]
    simp only [List.foldl_cons, List.foldl_nil]
    constructor
    · show (if _ < 60 then _ ++ [_] else _) = _
      rw [i1, it]
      simp only [List.length_map, List.length_range]
      by_cases h : c < 60
      · have h1 : min c 60 = c := by omega
        have h2 : min (c + 1) 60 = c + 1 := by omega
        rw [h1, h2, if_pos h, List.range_succ, List.map_append]
        rfl
      · have h1 : min c 60 = 60 := by omega
        have h2 : min (c + 1) 60 = 60 := by omega
        rw [h1, h2, if_neg (by omega)]
    · show (if _ < 120 then _ ++ [_] else _) = _
      rw [i2, it]
      simp only [List.length_map, List.length_range]
      by_cases h : c < 120
      · have h1 : min c 120 = c := by omega
        have h2 : min (c + 1) 120 = c + 1 := by omega
        rw [h1, h2, if_pos h, List.range_succ, List.map_append]
        rfl
      · have h1 : min c 120 = 120 := by omega
        have h2 : min (c + 1) 120 = 120 := by omega
        rw [h1, h2, if_neg (by omega)]

theorem last60BlockTimes_eq (b : CBlockIndex) :
    (collect b).last60BlockTimes =
      (List.range 60).map (fun i => (blockAgo i b).GetBlockTime) :=
  (collect_fold_times b 241).1

theorem last120BlockTimes_eq (b : CBlockIndex) :
    (collect b).last120BlockTimes =
      (List.range 120).map (fun i => (blockAgo i b).GetBlockTime) :=
  (collect_fold_times b 241).2

theorem length_last60BlockTimes (b : CBlockIndex) : (collect b).last60BlockTimes.length = 60 := by
  rw [last60BlockTimes_eq]; simp

theorem length_last120BlockTimes (b : CBlockIndex) :
    (collect b).last120BlockTimes.length = 120 := by
  rw [last120BlockTimes_eq]; simp

theorem idx_last60BlockTimes (b : CBlockIndex) (i : Nat) (h : i < 60) :
    idx (collect b).last60BlockTimes i = (blockAgo i b).GetBlockTime := by
  rw [last60BlockTimes_eq]
  unfold idx
  rw [List.getD_eq_getElem _ _ (by simpa using h)]
  simp

/-- Differences gathered by the difference loop after `k` iterations. -/
theorem differences_fold (l60 l120 : List Int) (k : Nat) :
    ((List.range k).foldl (diffStep l60 l120)
        { last59TimeDifferences := [], last119TimeDifferences := [], total := 0 }
      ).last59TimeDifferences =
      (List.range (min k 59)).map (fun i => |idx l60 i - idx l60 (i + 1)|) ∧
    ((List.range k).foldl (diffStep l60 l120)
        { last59TimeDifferences := [], last119TimeDifferences := [], total := 0 }
      ).last119TimeDifferences =
      (List.range k).map (fun i => |idx l120 i - idx l120 (i + 1)|) ∧
    ((List.range k).foldl (diffStep l60 l120)
        { last59TimeDifferences := [], last119TimeDifferences := [], total := 0 }
      ).total =
      ((List.range k).map (fun i => |idx l120 i - idx l120 (i + 1)|)).sum := by
  induction k with
  | zero => simp
  | succ k ih =>
    obtain ⟨i1, i2, i3⟩ := ih
    rw [List.range_succ, List.foldl_append]
    simp only [List.foldl_cons, List.foldl_nil]
    refine ⟨?_, ?_, ?_⟩
    · show (if k < 59 then _ ++ [_] else _) = _
      rw [i1]
      by_cases h : k < 59
      · have h1 : min k 59 = k := by omega
        have h2 : min (k + 1) 59 = k + 1 := by omega
        rw [h1, h2, if_pos h, List.range_succ, List.map_append]
        rfl
      · have h1 : min k 59 = 59 := by omega
        have h2 : min (k + 1) 59 = 59 := by omega
        rw [h1, h2, if_neg h]
    · show _ ++ [_] = _
      rw [i2, List.map_append]
      rfl
    · show _ + idx (_ ++ [_]) k = _
      rw [i2, i3, List.map_append, List.sum_append]
      congr 1
      unfold idx
      rw [List.getD_append_right _ _ _ _ (by simp)]
      simp

theorem last59TimeDifferences_eq (l60 l120 : List Int) :
    (differences l60 l120).last59TimeDifferences =
      (List.range 59).map (fun i => |idx l60 i - idx l60 (i + 1)|) :=
  (differences_fold l60 l120 119).1

theorem last119TimeDifferences_eq (l60 l120 : List Int) :
    (differences l60 l120).last119TimeDifferences =
      (List.range 119).map (fun i => |idx l120 i - idx l120 (i + 1)|) :=
  (differences_fold l60 l120 119).2.1

theorem total_eq (l60 l120 : List Int) :
    (differences l60 l120).total = (differences l60 l120).last119TimeDifferences.sum := by
  rw [last119TimeDifferences_eq]
  exact (differences_fold l60 l120 119).2.2

/-- The consecutive absolute differences, by index. -/
theorem absDiffs_eq_map (l : List Int) :
    absDiffs l = (List.range (l.length - 1)).map (fun i => |idx l i - idx l (i + 1)|) := by
  induction l with
  | nil => simp [absDiffs]
  | cons a l ih =>
    cases l with
    | nil => simp [absDiffs]
    | cons b l =>
      rw [absDiffs, ih]
      simp only [List.length_cons, Nat.add_sub_cancel]
      rw [List.range_succ_eq_map (l.length), List.map_cons, List.map_map]
      congr 1

theorem last59TimeDifferences_absDiffs (l60 l120 : List Int) (h : l60.length = 60) :
    (differences l60 l120).last59TimeDifferences = absDiffs l60 := by
  rw [last59TimeDifferences_eq, absDiffs_eq_map, h]

theorem last119TimeDifferences_absDiffs (l60 l120 : List Int) (h : l120.length = 120) :
    (differences l60 l120).last119TimeDifferences = absDiffs l120 := by
  rw [last119TimeDifferences_eq, absDiffs_eq_map, h]

/-- Inserting with the strict comparator keeps a list in descending order. -/
theorem sorted_orderedInsert_comp64 (a : Int) (l : List Int) (h : l.Sorted (· ≥ ·)) :
    (l.orderedInsert (fun x y => comp64 x y = true) a).Sorted (· ≥ ·) := by
  induction l with
  | nil => simp
  | cons b l ih =>
    rw [List.orderedInsert]
    have hb := List.rel_of_sorted_cons h
    split_ifs with hc
    · have hab : a > b := by simpa [comp64] using hc
      refine List.sorted_cons.2 ⟨?_, h⟩
      intro x hx
      rcases List.mem_cons.1 hx with rfl | hx
      · exact le_of_lt hab
      · exact le_trans (hb x hx) (le_of_lt hab)
    · have hab : a ≤ b := by simpa [comp64] using hc
      refine List.sorted_cons.2 ⟨?_, ih h.of_cons⟩
      intro x hx
      rcases (List.mem_orderedInsert _).1 hx with rfl | hx
      · exact hab
      · exact hb x hx

/-- The sort with `comp64` yields descending order. -/
theorem sorted_insertionSort_comp64 (l : List Int) :
    (l.insertionSort (fun x y => comp64 x y = true)).Sorted (· ≥ ·) := by
  induction l with
  | nil => simp
  | cons a l ih => exact sorted_orderedInsert_comp64 a _ ih

/-- The sort with `comp64` is the descending sort. -/
theorem insertionSort_comp64_eq (l : List Int) :
    l.insertionSort (fun x y => comp64 x y = true) = l.insertionSort (· ≥ ·) :=
  List.eq_of_perm_of_sorted
    ((List.perm_insertionSort _ l).trans (List.perm_insertionSort _ l).symm)
    (sorted_insertionSort_comp64 l) (List.sorted_insertionSort _ l)

/-- The ascending sort is the descending sort reversed. -/
theorem insertionSort_le_eq_reverse (l : List Int) :
    l.insertionSort (· ≤ ·) = (l.insertionSort (· ≥ ·)).reverse := by
  refine List.eq_of_perm_of_sorted
    ((List.perm_insertionSort _ l).trans
      ((List.reverse_perm _).trans (List.perm_insertionSort _ l)).symm)
    (List.sorted_insertionSort _ l) ?_
  have h := List.sorted_insertionSort (· ≥ ·) l
  exact List.pairwise_reverse.2 h

/-- In a descending list of 59 entries, the entry at index 29 has 30 entries at least
as large and 30 entries at most as large. -/
theorem median_counts (s : List Int) (hs : s.Sorted (· ≥ ·)) (hlen : s.length = 59) :
    30 ≤ s.countP (fun x => decide (idx s 29 ≤ x)) ∧
    30 ≤ s.countP (fun x => decide (x ≤ idx s 29)) := by
  have h29 : idx s 29 = s[29] := by
    unfold idx
    rw [List.getD_eq_getElem _ _ (by omega)]
  rw [h29]
  constructor
  · have hsplit : s = s.take 30 ++ s.drop 30 := (List.take_append_drop 30 s).symm
    have hall : ∀ x ∈ s.take 30, decide (s[29] ≤ x) = true := by
      intro x hx
      obtain ⟨i, hi, rfl⟩ := List.getElem_of_mem hx
      rw [List.length_take] at hi
      rw [List.getElem_take]
      have hi' : i ≤ 29 := by omega
      rcases Nat.eq_or_lt_of_le hi' with rfl | hlt
      · simp
      · have := List.pairwise_iff_getElem.1 hs i 29 (by omega) (by omega) hlt
        simpa using this
    have hc : (s.take 30).countP (fun x => decide (s[29] ≤ x)) = (s.take 30).length :=
      List.countP_eq_length.2 hall
    calc 30 = (s.take 30).length := by rw [List.length_take]; omega
      _ = (s.take 30).countP (fun x => decide (s[29] ≤ x)) := hc.symm
      _ ≤ (s.take 30 ++ s.drop 30).countP (fun x => decide (s[29] ≤ x)) := by
          rw [List.countP_append]; omega
      _ = s.countP (fun x => decide (s[29] ≤ x)) := by rw [← hsplit]
  · have hsplit : s = s.take 29 ++ s.drop 29 := (List.take_append_drop 29 s).symm
    have hall : ∀ x ∈ s.drop 29, decide (x ≤ s[29]) = true := by
      intro x hx
      obtain ⟨i, hi, rfl⟩ := List.getElem_of_mem hx
      rw [List.length_drop] at hi
      rw [List.getElem_drop]
      rcases Nat.eq_zero_or_pos i with rfl | hpos
      · simp
      · have := List.pairwise_iff_getElem.1 hs 29 (29 + i) (by omega) (by omega) (by omega)
        simpa using this
    have hc : (s.drop 29).countP (fun x => decide (x ≤ s[29])) = (s.drop 29).length :=
      List.countP_eq_length.2 hall
    calc 30 = (s.drop 29).length := by rw [List.length_drop]; omega
      _ = (s.drop 29).countP (fun x => decide (x ≤ s[29])) := hc.symm
      _ ≤ (s.take 29 ++ s.drop 29).countP (fun x => decide (x ≤ s[29])) := by
          rw [List.countP_append]; omega
      _ = s.countP (fun x => decide (x ≤ s[29])) := by rw [← hsplit]

theorem length_absDiffs (l : List Int) : (absDiffs l).length = l.length - 1 := by
  rw [absDiffs_eq_map]; simp

theorem absDiffs_nonneg (l : List Int) : ∀ x ∈ absDiffs l, 0 ≤ x := by
  intro x hx
  rw [absDiffs_eq_map] at hx
  obtain ⟨i, -, rfl⟩ := List.mem_map.1 hx
  exact abs_nonneg _

theorem vectorAt_of_lt (l : List Int) (i : Nat) (h : i < l.length) :
    vectorAt l (i : Int) = some (idx l i) := by
  unfold vectorAt idx
  rw [if_neg (by omega), Int.toNat_ofNat, List.get?_eq_get h, List.getD_eq_getElem _ _ h]
  rfl

/-- One step of the scan on a window of 60 timestamps. -/
theorem scanStep_of_length (l : List Int) (hlen : l.length = 60) (n index : Nat)
    (h1 : 1 ≤ index) (h2 : index ≤ 54) :
    scanStep l (some n) index =
      some (if |idx l (60 - index) - idx l (55 - index)| = 600 then n + 1 else n) := by
  unfold scanStep
  have e1 : (l.length : Int) - (index : Int) = ((60 - index : Nat) : Int) := by
    rw [hlen]; omega
  have e2 : (l.length : Int) - ((index : Int) + 5) = ((55 - index : Nat) : Int) := by
    rw [hlen]; omega
  rw [e1, e2, vectorAt_of_lt l _ (by omega), vectorAt_of_lt l _ (by omega)]

/-- The scan counts the indices whose pair differs by exactly 600. -/
theorem foldl_scanStep (l : List Int) (hlen : l.length = 60) (L : List Nat)
    (hL : ∀ i ∈ L, 1 ≤ i ∧ i ≤ 54) (n : Nat) :
    L.foldl (scanStep l) (some n) =
      some (n + L.countP
        (fun index => decide (|idx l (60 - index) - idx l (55 - index)| = 600))) := by
  induction L generalizing n with
  | nil => simp
  | cons i L ih =>
    have hi := hL i (List.mem_cons_self _ _)
    rw [List.foldl_cons, scanStep_of_length l hlen n i hi.1 hi.2]
    have hL' : ∀ j ∈ L, 1 ≤ j ∧ j ≤ 54 := fun j hj => hL j (List.mem_cons_of_mem _ hj)
    rw [List.countP_cons]
    by_cases hc : |idx l (60 - i) - idx l (55 - i)| = 600
    · rw [if_pos hc, ih hL' (n + 1)]
      simp only [hc, decide_True, if_true]
      congr 1
      omega
    · rw [if_neg hc, ih hL' n]
      simp only [hc, decide_False, Bool.false_eq_true, if_false, Nat.add_zero]

theorem numTooClose_eq (l : List Int) (hlen : l.length = 60) :
    numTooClose l =
      some (((List.range 54).map (· + 1)).countP
        (fun index => decide (|idx l (60 - index) - idx l (55 - index)| = 600))) := by
  unfold numTooClose
  rw [foldl_scanStep l hlen _ _ 0]
  · simp
  · intro i hi
    obtain ⟨k, hk, rfl⟩ := List.mem_map.1 hi
    have := List.mem_range.1 hk
    omega

/-- The scan finds something exactly when some pair `t[j]`, `t[j + 5]` with
`1 ≤ j ≤ 54` differs by exactly 600. -/
theorem numTooClose_pos_iff (l : List Int) (hlen : l.length = 60) :
    (∃ n, numTooClose l = some n ∧ 0 < n) ↔
      ∃ j, 1 ≤ j ∧ j ≤ 54 ∧ |idx l (j + 5) - idx l j| = 600 := by
  rw [numTooClose_eq l hlen]
  constructor
  · rintro ⟨n, hn, hpos⟩
    rw [← Option.some.inj hn] at hpos
    obtain ⟨i, hi, hp⟩ := List.countP_pos_iff.1 hpos
    obtain ⟨k, hk, rfl⟩ := List.mem_map.1 hi
    have hk' := List.mem_range.1 hk
    refine ⟨54 - k, by omega, by omega, ?_⟩
    have e1 : 60 - (k + 1) = 54 - k + 5 := by omega
    have e2 : 55 - (k + 1) = 54 - k := by omega
    rw [e1, e2] at hp
    simpa using hp
  · rintro ⟨j, h1, h2, hj⟩
    refine ⟨_, rfl, List.countP_pos_iff.2 ⟨55 - j, ?_, ?_⟩⟩
    · exact List.mem_map.2 ⟨54 - j, List.mem_range.2 (by omega), by omega⟩
    · have e1 : 60 - (55 - j) = j + 5 := by omega
      have e2 : 55 - (55 - j) = j := by omega
      rw [e1, e2]
      simpa using hj

/-- The deadlock defence on a window of 60 timestamps. -/
theorem deadlockDefense_eq (l : List Int) (hlen : l.length = 60) (medTime : Int) :
    (120 ≤ medTime → (∃ j, 1 ≤ j ∧ j ≤ 54 ∧ |idx l (j + 5) - idx l j| = 600) →
      deadlockDefense l medTime = some 119) ∧
    (120 ≤ medTime → ¬ (∃ j, 1 ≤ j ∧ j ≤ 54 ∧ |idx l (j + 5) - idx l j| = 600) →
      deadlockDefense l medTime = some medTime) ∧
    (medTime < 120 → deadlockDefense l medTime = some medTime) := by
  have hiff := numTooClose_pos_iff l hlen
  have hn := numTooClose_eq l hlen
  refine ⟨?_, ?_, ?_⟩
  · intro hm hex
    obtain ⟨n, hn', hpos⟩ := hiff.2 hex
    unfold deadlockDefense
    rw [if_pos hm, hn']
    simp [hpos]
  · intro hm hex
    unfold deadlockDefense
    rw [if_pos hm, hn]
    have hz : ¬ (0 < ((List.range 54).map (· + 1)).countP
        (fun index => decide (|idx l (60 - index) - idx l (55 - index)| = 600))) :=
      fun hpos => hex (hiff.1 ⟨_, hn, hpos⟩)
    simp only [gt_iff_lt, hz, if_false]
  · intro hm
    unfold deadlockDefense
    rw [if_neg (by omega)]

theorem defendedMedTime_eq (l : List Int) (d : DiffState) :
    defendedMedTime l d = deadlockDefense l (overriddenMedTime d) := rfl

theorem retarget_eq (nBits nbits60ago nbits240ago : Nat) (medTime : Int) (didHalfAdjust : Bool)
    (limit : Nat) :
    retarget nBits nbits60ago nbits240ago medTime didHalfAdjust limit =
      boundedTarget (flooredTarget nBits medTime didHalfAdjust) nbits60ago nbits240ago limit :=
  rfl

/-- What `GoldenRiver` returns, by stages. -/
theorem GoldenRiver_stages (pindexLast : CBlockIndex) (params : Params) (r : Nat)
    (h : GoldenRiver pindexLast params = some r) :
    ∃ medTime, finalMedTime pindexLast = some medTime ∧
      r = boundedTarget
        (flooredTarget pindexLast.nBits medTime (halfAdjust (differencesOf pindexLast)))
        (blockAgo 60 pindexLast).nBits (blockAgo 240 pindexLast).nBits
        (UintToArith256 params.powScryptLimit) := by
  obtain ⟨m, hm, hr⟩ := GoldenRiver_eq_some pindexLast params r h
  refine ⟨bandedMedTime (averageTime (differencesOf pindexLast)) m
    (halfAdjust (differencesOf pindexLast)), ?_, ?_⟩
  · unfold finalMedTime medTimeAfterDefense
    rw [hm]
    rfl
  · rw [hr, retarget_eq, nbits60ago_eq, nbits240ago_eq]

/-- The band of lines 185-210 leaves 117 to 122, or 170 after a half-adjust. -/
theorem bandedMedTime_range (averageTime medTime : Int) (didHalfAdjust : Bool) :
    ((117 ≤ bandedMedTime averageTime medTime didHalfAdjust ∧
        bandedMedTime averageTime medTime didHalfAdjust ≤ 122) ∨
      bandedMedTime averageTime medTime didHalfAdjust = 170) ∧
    (bandedMedTime averageTime medTime didHalfAdjust = 170 → didHalfAdjust = true) := by
  unfold bandedMedTime
  split_ifs with h1 h2 h3
  · exact ⟨Or.inr rfl, fun _ => h2⟩
  · exact ⟨Or.inl ⟨by norm_num, by norm_num⟩, fun hc => by norm_num at hc⟩
  · exact ⟨Or.inl ⟨by norm_num, by norm_num⟩, fun hc => by norm_num at hc⟩
  · exact ⟨Or.inl ⟨by omega, by omega⟩, fun hc => by omega⟩

/-- The walk to `pindexFirst` follows parent links like `back`. -/
theorem walkFirst_eq_back (k : Nat) (b : CBlockIndex) : walkFirst k b = CBlockIndex.back k b := by
  induction k generalizing b with
  | zero => rfl
  | succ k ih =>
    cases b with
    | root d => rfl
    | node d p => exact ih p

/-- The entry reached after `k + 1` links is the parent of the one reached after `k`. -/
theorem back_succ (k : Nat) (b a : CBlockIndex) (h : CBlockIndex.back (k + 1) b = some a) :
    ∃ c, CBlockIndex.back k b = some c ∧ c.pprev = some a := by
  induction k generalizing b with
  | zero =>
    cases b with
    | root d => simp [CBlockIndex.back] at h
    | node d p =>
      refine ⟨CBlockIndex.node d p, rfl, ?_⟩
      have : p = a := by simpa [CBlockIndex.back] using h
      rw [← this]; rfl
  | succ k ih =>
    cases b with
    | root d => simp [CBlockIndex.back] at h
    | node d p => exact ih p (by simpa [CBlockIndex.back] using h)

/-- On a window of 60 timestamps the deadlock defence returns a value. -/
theorem deadlockDefense_isSome (l : List Int) (hlen : l.length = 60) (medTime : Int) :
    ∃ m, deadlockDefense l medTime = some m := by
  unfold deadlockDefense
  rw [numTooClose_eq l hlen]
  split_ifs
  · exact ⟨_, rfl⟩
  · exact ⟨_, rfl⟩

/-- `GoldenRiver` returns as soon as the tip has 60 ancestors. -/
theorem GoldenRiver_returns (pindexLast : CBlockIndex) (params : Params)
    (h : ∀ k ≤ 60, ∃ a, walkFirst k pindexLast = some a) :
    ∃ r, GoldenRiver pindexLast params = some r := by
  obtain ⟨m, hm⟩ := deadlockDefense_isSome (collect pindexLast).last60BlockTimes
    (length_last60BlockTimes pindexLast) (overriddenMedTime (differencesOf pindexLast))
  rw [← defendedMedTime_eq] at hm
  unfold differencesOf at hm
  have hI : (2 * 60 * 60 : Int).tdiv (2 * 60) = 60 := by decide
  unfold GoldenRiver
  simp only [hI]
  by_cases hh : pindexLast.nHeight + 1 ≠ 60
  · obtain ⟨a, ha⟩ := h 60 (le_refl _)
    rw [if_pos hh]
    have : (60 : Int).toNat = 60 := rfl
    rw [this, ha]
    simp only [hm]
    exact ⟨_, rfl⟩
  · obtain ⟨a, ha⟩ := h 59 (by norm_num)
    rw [if_neg hh]
    have : ((60 : Int) - 1).toNat = 59 := rfl
    rw [this, ha]
    simp only [hm]
    exact ⟨_, rfl⟩

/-! ## Lemmas on the flags and on the minimum-difficulty walk -/

/-- Flags of a compact value given by its mantissa word and size. -/
theorem SetCompact_pack_flags (w s : Nat) (hw : w < 2 ^ 23) (hs : s ≤ 33)
    (h33 : s = 33 → w ≤ 0xffff) :
    (SetCompact (w + s * 2 ^ 24)).fNegative = false ∧
    (SetCompact (w + s * 2 ^ 24)).fOverflow = false := by
  have hc : (w + s * 2 ^ 24) % 2 ^ 32 = w + s * 2 ^ 24 := by omega
  have h23 : (0x007fffff : Nat) = 2 ^ 23 - 1 := by norm_num
  have hsz : (w + s * 2 ^ 24) >>> 24 = s := by
    rw [Nat.shiftRight_eq_div_pow]; omega
  have hwd : (w + s * 2 ^ 24) &&& 0x007fffff = w := by
    rw [h23, Nat.and_pow_two_sub_one_eq_mod]; omega
  have hsign : (w + s * 2 ^ 24) &&& 0x00800000 = 0 := by
    have h8 : (0x00800000 : Nat) = 2 ^ 23 := by norm_num
    rw [h8, Nat.and_two_pow, Nat.testBit_to_div_mod]
    have : ¬ ((w + s * 2 ^ 24) / 2 ^ 23 % 2 = 1) := by omega
    rw [decide_eq_false this]
    rfl
  unfold SetCompact
  simp only [hc, hsz, hwd, hsign]
  constructor
  · simp
  · by_cases h3 : s ≤ 3
    · have a1 : ¬ s > 34 := by omega
      have a2 : ¬ s > 33 := by omega
      have a3 : ¬ s > 32 := by omega
      simp [a1, a2, a3]
    · have a1 : ¬ s > 34 := by omega
      have a2 : ¬ s > 33 := by omega
      by_cases h32 : s > 32
      · have a3 : ¬ w > 0xffff := by have := h33 (by omega); omega
        simp [h3, a1, a2, a3]
      · simp [h3, a1, a2, h32]

/-- Decoding an encoded magnitude never raises a flag. -/
theorem recode_flags (x : Nat) (hx : x < 2 ^ 256) :
    (SetCompact (GetCompact x)).fNegative = false ∧
    (SetCompact (GetCompact x)).fOverflow = false := by
  have hb := bits_le x
  have hlt := lt_two_pow_bits x hx
  obtain ⟨n, hn⟩ : ∃ n, (bits x + 7) / 8 = n := ⟨_, rfl⟩
  have hn32 : n ≤ 32 := by omega
  have hxn : x < 2 ^ (8 * n) :=
    lt_of_lt_of_le hlt (Nat.pow_le_pow_right (by norm_num) (by omega))
  have key : ∀ m : Nat, m < 2 ^ 24 →
      (SetCompact (if 2 ^ 23 ≤ m then m / 256 + (n + 1) * 2 ^ 24 else m + n * 2 ^ 24)).fNegative
        = false ∧
      (SetCompact (if 2 ^ 23 ≤ m then m / 256 + (n + 1) * 2 ^ 24 else m + n * 2 ^ 24)).fOverflow
        = false := by
    intro m hm
    split_ifs with h
    · exact SetCompact_pack_flags _ _ (by omega) (by omega) (fun _ => by omega)
    · exact SetCompact_pack_flags _ _ (by omega) (by omega) (fun hc => by omega)
  by_cases hn3 : n ≤ 3
  · rw [GetCompact_small x n hn hn3 hxn]
    apply key
    interval_cases n <;> norm_num at hxn ⊢ <;> omega
  · rw [GetCompact_large x n hn (by omega) hn32 hxn]
    apply key
    apply Nat.div_lt_of_lt_mul
    rw [← pow_add]
    have : 8 * (n - 3) + 24 = 8 * n := by omega
    rw [this]; exact hxn

/-- The byte length of a magnitude, from its defining property. -/
theorem byteLength_eq (x n : Nat) (hx : x < 2 ^ 256) (hn : x < 256 ^ n)
    (hmin : ∀ m, x < 256 ^ m → n ≤ m) : n = (bits x + 7) / 8 := by
  have h256 : ∀ m : Nat, (256 : Nat) ^ m = 2 ^ (8 * m) := by
    intro m
    rw [pow_mul]
    norm_num
  rw [h256] at hn
  have h1 : bits x ≤ 8 * n := (bits_le_iff x _ hx).2 hn
  have h2 : x < 256 ^ ((bits x + 7) / 8) := by
    rw [h256]
    exact (bits_le_iff x _ hx).1 (by omega)
  have h3 := hmin _ h2
  omega

/-- A magnitude made of a mantissa word below `2 ^ 23` and whole zero bytes survives
the compact form unchanged. -/
theorem recode_of_mantissa (w e : Nat) (hw : w < 2 ^ 23) (hv : w * 2 ^ (8 * e) < 2 ^ 256) :
    recode (w * 2 ^ (8 * e)) = w * 2 ^ (8 * e) := by
  rw [recode_eq _ hv]
  have hlt : w * 2 ^ (8 * e) < 2 ^ (23 + 8 * e) := by
    rw [pow_add]
    exact Nat.mul_lt_mul_of_pos_right hw (Nat.pos_pow_of_pos _ (by norm_num))
  have hbits : bits (w * 2 ^ (8 * e)) ≤ 23 + 8 * e := (bits_le_iff _ _ hv).2 hlt
  have hk : lostBytes (w * 2 ^ (8 * e)) ≤ e := by unfold lostBytes; omega
  generalize lostBytes (w * 2 ^ (8 * e)) = k at hk
  have hsplit : 2 ^ (8 * e) = 2 ^ (8 * (e - k)) * 2 ^ (8 * k) := by
    rw [← pow_add]; congr 1; omega
  rw [hsplit, ← Nat.mul_assoc, Nat.mul_div_cancel _ (Nat.pos_pow_of_pos _ (by norm_num))]

theorem pprev_node (d : BlockData) (p : CBlockIndex) :
    (CBlockIndex.node d p).pprev = some p := rfl

/-- The walk of lines 42-44 stops at the nearest entry that carries a real target. -/
theorem lastNonSpecial_spec (N : Int) (L : Nat) (b : CBlockIndex) :
    ∃ k, CBlockIndex.back k b = some (lastNonSpecial N L b) ∧
      isRealTarget N L (lastNonSpecial N L b) ∧
      ∀ j < k, ∀ Bj, CBlockIndex.back j b = some Bj → ¬ isRealTarget N L Bj := by
  induction b with
  | root d =>
    refine ⟨0, rfl, Or.inl rfl, ?_⟩
    intro j hj
    omega
  | node d p ih =>
    by_cases hc : d.nHeight.tmod N ≠ 0 ∧ d.nBits = L
    · obtain ⟨k, hk, hreal, hskip⟩ := ih
      have hl : lastNonSpecial N L (CBlockIndex.node d p) = lastNonSpecial N L p := by
        rw [lastNonSpecial, if_pos hc]
      rw [hl]
      refine ⟨k + 1, hk, hreal, ?_⟩
      intro j hj Bj hBj
      cases j with
      | zero =>
        have hB : Bj = CBlockIndex.node d p := (Option.some.inj hBj).symm
        rw [hB]
        rintro (h1 | h2 | h3)
        · simp [pprev_node] at h1
        · exact hc.1 (Int.tmod_eq_zero_of_dvd h2)
        · exact h3 hc.2
      | succ j => exact hskip j (by omega) Bj hBj
    · have hl : lastNonSpecial N L (CBlockIndex.node d p) = CBlockIndex.node d p := by
        rw [lastNonSpecial, if_neg hc]
      rw [hl]
      refine ⟨0, rfl, ?_, ?_⟩
      · by_cases h0 : d.nHeight.tmod N = 0
        · exact Or.inr (Or.inl (Int.dvd_of_tmod_eq_zero h0))
        · exact Or.inr (Or.inr (fun hb => hc ⟨h0, hb⟩))
      · intro j hj
        omega

/-- Heights along the parent links of a chain with linked heights. -/
theorem nHeight_back_of_linked (b : CBlockIndex) (hl : b.heightsLinked = true) (k : Nat)
    (a : CBlockIndex) (h : CBlockIndex.back k b = some a) : a.nHeight = b.nHeight - k := by
  induction b generalizing k with
  | root d =>
    cases k with
    | zero =>
      have : a = CBlockIndex.root d := (Option.some.inj h).symm
      rw [this]; simp
    | succ k => simp [CBlockIndex.back] at h
  | node d p ih =>
    cases k with
    | zero =>
      have : a = CBlockIndex.node d p := (Option.some.inj h).symm
      rw [this]; simp
    | succ k =>
      simp [CBlockIndex.heightsLinked] at hl
      have := ih hl.2 k (by simpa [CBlockIndex.back] using h)
      rw [this, nHeight_node, hl.1]
      push_cast
      omega

/-- An entry reached after `k` links has all nearer ancestors too. -/
theorem back_of_le (b : CBlockIndex) (k j : Nat) (hj : j ≤ k) (a : CBlockIndex)
    (h : CBlockIndex.back k b = some a) : ∃ c, CBlockIndex.back j b = some c := by
  induction b generalizing k j with
  | root d =>
    cases k with
    | zero =>
      have : j = 0 := by omega
      subst this
      exact ⟨_, rfl⟩
    | succ k => simp [CBlockIndex.back] at h
  | node d p ih =>
    cases j with
    | zero => exact ⟨_, rfl⟩
    | succ j =>
      cases k with
      | zero => omega
      | succ k => exact ih k j (by omega) (by simpa [CBlockIndex.back] using h)

/-! ## The properties, continued -/

/-- C11 fails on the gap chain: the timestamps 6 and 11 places back differ by exactly
600 seconds, but the median is 60, so the defence is not evaluated and `medTime`
stays 60. -/
theorem C11_counterexample :
    (6 + 5 ≤ 54 ∧
      |idx (collect gapChain).last60BlockTimes 6 - idx (collect gapChain).last60BlockTimes 11|
        = 600) ∧
    medTimeAfterDefense gapChain = some 60 := by
  decide

/-- C11, amended. When `medTime` is at least 120 on entry to the deadlock defence and
some timestamps `j` and `j + 5` places back from the tip, with `1 ≤ j ≤ 54`,
differ by exactly 600 seconds, `medTime` after the defence is 119. -/
theorem C11_deadlock_forces_119 (pindexLast : CBlockIndex) (j : Nat) (h1 : 1 ≤ j) (h2 : j ≤ 54)
    (hentry : 120 ≤ overriddenMedTime (differencesOf pindexLast))
    (hpair : |(blockAgo (j + 5) pindexLast).GetBlockTime - (blockAgo j pindexLast).GetBlockTime|
      = 600) :
    medTimeAfterDefense pindexLast = some 119 := by
  unfold medTimeAfterDefense
  rw [defendedMedTime_eq]
  refine (deadlockDefense_eq _ (length_last60BlockTimes pindexLast) _).1 hentry ⟨j, h1, h2, ?_⟩
  rw [idx_last60BlockTimes _ _ (by omega), idx_last60BlockTimes _ _ (by omega)]
  exact hpair

/-- C11, amended, on the stalled chain, with the entries 2 and 7 places back. -/
theorem C11_witness :
    (120 ≤ overriddenMedTime (differencesOf stalledChain) ∧
      |(blockAgo (2 + 5) stalledChain).GetBlockTime - (blockAgo 2 stalledChain).GetBlockTime|
        = 600) ∧
    medTimeAfterDefense stalledChain = some 119 :=
  ⟨by decide, C11_deadlock_forces_119 stalledChain 2 (by decide) (by decide) (by decide)
    (by decide)⟩

/-- C12 fails at `0x800001`: three bytes with the top bit set; the compact form keeps
only two of them. -/
theorem C12_counterexample :
    (0x800001 < 256 ^ 3 ∧ ¬ 0x800001 < 256 ^ 2) ∧
    (SetCompact (GetCompact 0x800001)).value = 0x800000 ∧
    (SetCompact (GetCompact 0x800001)).value ≠ 0x800001 := by
  decide

/-- C12, amended. For a magnitude `x` below `2 ^ 256` of `n` bytes, decoding the
encoding raises neither flag, and the magnitude is `x` cut to its 3 most
significant bytes when the top bit of the top byte is clear (`x < 2 ^ (8 n - 1)`)
and to its 2 most significant bytes when that bit is set. -/
theorem C12_decode_encode (x n : Nat) (hx : x < 2 ^ 256) (hn : x < 256 ^ n)
    (hmin : ∀ m, x < 256 ^ m → n ≤ m) :
    (SetCompact (GetCompact x)).fNegative = false ∧
    (SetCompact (GetCompact x)).fOverflow = false ∧
    (SetCompact (GetCompact x)).value =
      if x < 2 ^ (8 * n - 1) then
        (if n ≤ 3 then x else x / 256 ^ (n - 3) * 256 ^ (n - 3))
      else (if n ≤ 2 then x else x / 256 ^ (n - 2) * 256 ^ (n - 2)) := by
  have hfl := recode_flags x hx
  refine ⟨hfl.1, hfl.2, ?_⟩
  have hnb := byteLength_eq x n hx hn hmin
  have hb := bits_le x
  have h256 : ∀ m : Nat, (256 : Nat) ^ m = 2 ^ (8 * m) := by
    intro m
    rw [pow_mul]
    norm_num
  have hval : (SetCompact (GetCompact x)).value =
      x / 2 ^ (8 * lostBytes x) * 2 ^ (8 * lostBytes x) := recode_eq x hx
  rw [hval]
  by_cases htop : x < 2 ^ (8 * n - 1)
  · have hbt : bits x ≤ 8 * n - 1 := (bits_le_iff x _ hx).2 htop
    rw [if_pos htop]
    by_cases hn3 : n ≤ 3
    · have hk : lostBytes x = 0 := by unfold lostBytes; omega
      rw [if_pos hn3, hk]
      simp
    · have hk : lostBytes x = n - 3 := by unfold lostBytes; omega
      rw [if_neg hn3, hk, h256]
  · have hbt : ¬ bits x ≤ 8 * n - 1 := fun hc => htop ((bits_le_iff x _ hx).1 hc)
    rw [if_neg htop]
    by_cases hn2 : n ≤ 2
    · have hk : lostBytes x = 0 := by unfold lostBytes; omega
      rw [if_pos hn2, hk]
      simp
    · have hk : lostBytes x = n - 2 := by unfold lostBytes; omega
      rw [if_neg hn2, hk, h256]

/-- C12, amended, at `0x800001`, a magnitude of 3 bytes. -/
theorem C12_witness :
    (SetCompact (GetCompact 0x800001)).fNegative = false ∧
    (SetCompact (GetCompact 0x800001)).fOverflow = false ∧
    (SetCompact (GetCompact 0x800001)).value =
      if 0x800001 < 2 ^ (8 * 3 - 1) then
        (if 3 ≤ 3 then 0x800001 else 0x800001 / 256 ^ (3 - 3) * 256 ^ (3 - 3))
      else (if 3 ≤ 2 then 0x800001 else 0x800001 / 256 ^ (3 - 2) * 256 ^ (3 - 2)) :=
  C12_decode_encode 0x800001 3 (by norm_num) (by norm_num) (by
    intro m hm
    by_contra hc
    have hm2 : m ≤ 2 := by omega
    have : (256 : Nat) ^ m ≤ 256 ^ 2 := Nat.pow_le_pow_right (by norm_num) hm2
    omega)

/-- C13. Encoding the magnitude decoded from any compact value and decoding again
gives the same magnitude. -/
theorem C13_recode_decoded (c : Nat) :
    (SetCompact (GetCompact (SetCompact c).value)).value = (SetCompact c).value := by
  show recode (SetCompact c).value = (SetCompact c).value
  rw [SetCompact_value_eq]
  have h1 : (c % 2 ^ 32) &&& 0x007fffff ≤ 0x007fffff := Nat.and_le_right
  generalize (c % 2 ^ 32) &&& 0x007fffff = w at h1
  generalize (c % 2 ^ 32) >>> 24 = n
  have hw : w < 2 ^ 23 := by omega
  split_ifs with h
  · rw [Nat.shiftRight_eq_div_pow]
    have h2 : w / 2 ^ (8 * (3 - n)) ≤ w := Nat.div_le_self _ _
    have key := recode_of_mantissa (w / 2 ^ (8 * (3 - n))) 0 (by omega) (by
      simp only [Nat.mul_zero, pow_zero, Nat.mul_one]
      have : (2 : Nat) ^ 23 < 2 ^ 256 := by norm_num
      omega)
    simpa using key
  · rw [Nat.shiftLeft_eq]
    by_cases he : 256 ≤ 8 * (n - 3)
    · have hdvd : 2 ^ 256 ∣ w * 2 ^ (8 * (n - 3)) :=
        Dvd.dvd.mul_left (Nat.pow_dvd_pow 2 he) w
      rw [Nat.mod_eq_zero_of_dvd hdvd]
      have key := recode_of_mantissa 0 0 (by norm_num) (by norm_num)
      simpa using key
    · have hsplit : 2 ^ 256 = 2 ^ (256 - 8 * (n - 3)) * 2 ^ (8 * (n - 3)) := by
        rw [← pow_add]; congr 1; omega
      have hmod : w * 2 ^ (8 * (n - 3)) % 2 ^ 256 =
          w % 2 ^ (256 - 8 * (n - 3)) * 2 ^ (8 * (n - 3)) := by
        rw [hsplit, Nat.mul_mod_mul_right]
      have hlt : w * 2 ^ (8 * (n - 3)) % 2 ^ 256 < 2 ^ 256 := Nat.mod_lt _ (by norm_num)
      rw [hmod] at hlt ⊢
      have hw' : w % 2 ^ (256 - 8 * (n - 3)) < 2 ^ 23 :=
        lt_of_le_of_lt (Nat.mod_le _ _) hw
      exact recode_of_mantissa _ _ hw' hlt

/-- C15 fails on the stalled chain: the half-adjust is triggered, the deadlock scan
then sets `medTime` to 119, and with an average of 185 the band leaves it there. -/
theorem C15_counterexample :
    (averageTime (differencesOf stalledChain) ≥ 180 ∧
      idx (differencesOf stalledChain).last119TimeDifferences 0 ≥ 1200 ∧
      idx (differencesOf stalledChain).last119TimeDifferences 1 ≥ 1200) ∧
    finalMedTime stalledChain = some 119 := by
  decide

/-- C15, amended. When the half-adjust is triggered and either the average exceeds 216
or no timestamps `j` and `j + 5` places back, `1 ≤ j ≤ 54`, differ by exactly
600 seconds, the final `medTime` is 170, the floor is skipped, and the target
handed to the history bounds and the limit is the decoded previous target times
10200 (a 256-bit product) divided by 7200. -/
theorem C15_half_adjust (pindexLast : CBlockIndex)
    (hhalf : averageTime (differencesOf pindexLast) ≥ 180 ∧
      idx (differencesOf pindexLast).last119TimeDifferences 0 ≥ 1200 ∧
      idx (differencesOf pindexLast).last119TimeDifferences 1 ≥ 1200)
    (hclear : 216 < averageTime (differencesOf pindexLast) ∨
      ¬ ∃ j, 1 ≤ j ∧ j ≤ 54 ∧
        |(blockAgo (j + 5) pindexLast).GetBlockTime - (blockAgo j pindexLast).GetBlockTime|
          = 600) :
    finalMedTime pindexLast = some 170 ∧
    flooredTarget pindexLast.nBits 170 (halfAdjust (differencesOf pindexLast)) =
      mul256 (SetCompact pindexLast.nBits).value 10200 / 7200 ∧
    ∀ params r, GoldenRiver pindexLast params = some r →
      r = boundedTarget (mul256 (SetCompact pindexLast.nBits).value 10200 / 7200)
        (blockAgo 60 pindexLast).nBits (blockAgo 240 pindexLast).nBits
        (UintToArith256 params.powScryptLimit) := by
  have hH : halfAdjust (differencesOf pindexLast) = true := by
    unfold halfAdjust
    simp [hhalf.1, hhalf.2.1, hhalf.2.2]
  have hentry : overriddenMedTime (differencesOf pindexLast) = 240 := by
    unfold overriddenMedTime
    rw [hH]; rfl
  have hdef := deadlockDefense_eq (collect pindexLast).last60BlockTimes
    (length_last60BlockTimes pindexLast) 240
  have hfinal : finalMedTime pindexLast = some 170 := by
    unfold finalMedTime medTimeAfterDefense
    rw [defendedMedTime_eq, hentry, hH]
    by_cases hex : ∃ j, 1 ≤ j ∧ j ≤ 54 ∧
        |idx (collect pindexLast).last60BlockTimes (j + 5) -
          idx (collect pindexLast).last60BlockTimes j| = 600
    · rw [hdef.1 (by norm_num) hex]
      rcases hclear with hav | hno
      · simp [bandedMedTime, hav]
      · exfalso
        apply hno
        obtain ⟨j, h1, h2, hj⟩ := hex
        refine ⟨j, h1, h2, ?_⟩
        rw [idx_last60BlockTimes _ _ (by omega), idx_last60BlockTimes _ _ (by omega)] at hj
        exact hj
    · rw [hdef.2.1 (by norm_num) hex]
      simp [bandedMedTime]
  have hfloor : flooredTarget pindexLast.nBits 170 (halfAdjust (differencesOf pindexLast)) =
      mul256 (SetCompact pindexLast.nBits).value 10200 / 7200 := by
    rw [hH]
    unfold flooredTarget unconstrainedTarget
    have : toUint32 (170 * 60) = 10200 := by decide
    rw [this]
    simp
  refine ⟨hfinal, hfloor, ?_⟩
  intro params r hr
  obtain ⟨m, hm, hr'⟩ := GoldenRiver_stages pindexLast params r hr
  rw [hfinal] at hm
  have hm' : m = 170 := (Option.some.inj hm).symm
  rw [hm', hfloor] at hr'
  exact hr'

/-- C15, amended, on the slow chain, whose average spacing is 1300 seconds. -/
theorem C15_witness :
    (averageTime (differencesOf slowChain) ≥ 180 ∧
      idx (differencesOf slowChain).last119TimeDifferences 0 ≥ 1200 ∧
      idx (differencesOf slowChain).last119TimeDifferences 1 ≥ 1200) ∧
    finalMedTime slowChain = some 170 :=
  ⟨by decide, (C15_half_adjust slowChain (by decide) (Or.inl (by decide))).1⟩

/-- C16. For 60 and 120 collected timestamps, the initial `medTime` is the smaller of
`m` and `a`, where `a` is the truncated mean of the 119 absolute consecutive
differences and `m` is the entry at index 29 of the descending sort of the 59
absolute consecutive differences; at least 30 of the 59 differences are at least
`m`, at least 30 are at most `m`, and `m` is also the entry at index 29 of the
ascending sort. -/
theorem C16_initialMedTime_is_min_median_average (l60 l120 : List Int)
    (h60 : l60.length = 60) (h120 : l120.length = 120) :
    (absDiffs l60).length = 59 ∧ (absDiffs l120).length = 119 ∧
    initialMedTime (differences l60 l120) =
      min (idx ((absDiffs l60).insertionSort (· ≥ ·)) 29)
        ((absDiffs l120).sum.tdiv 119) ∧
    30 ≤ (absDiffs l60).countP
      (fun x => decide (idx ((absDiffs l60).insertionSort (· ≥ ·)) 29 ≤ x)) ∧
    30 ≤ (absDiffs l60).countP
      (fun x => decide (x ≤ idx ((absDiffs l60).insertionSort (· ≥ ·)) 29)) ∧
    idx ((absDiffs l60).insertionSort (· ≥ ·)) 29 =
      idx ((absDiffs l60).insertionSort (· ≤ ·)) 29 := by
  have hlen59 : (absDiffs l60).length = 59 := by rw [length_absDiffs, h60]
  have hlen119 : (absDiffs l120).length = 119 := by rw [length_absDiffs, h120]
  have hslen : ((absDiffs l60).insertionSort (· ≥ ·)).length = 59 := by
    rw [List.length_insertionSort, hlen59]
  have hsorted := List.sorted_insertionSort (· ≥ ·) (absDiffs l60)
  have hperm := List.perm_insertionSort (· ≥ ·) (absDiffs l60)
  have hmed := median_counts _ hsorted hslen
  have hget : idx ((absDiffs l60).insertionSort (· ≥ ·)) 29 =
      ((absDiffs l60).insertionSort (· ≥ ·))[29] := by
    unfold idx
    rw [List.getD_eq_getElem _ _ (by omega)]
  refine ⟨hlen59, hlen119, ?_, ?_, ?_, ?_⟩
  · have hnonneg : 0 ≤ idx ((absDiffs l60).insertionSort (· ≥ ·)) 29 := by
      rw [hget]
      exact absDiffs_nonneg l60 _ (hperm.subset (List.getElem_mem _))
    unfold initialMedTime averageTime sortedDifferences
    rw [total_eq, last119TimeDifferences_absDiffs l60 l120 h120,
      last59TimeDifferences_absDiffs l60 l120 h60, insertionSort_comp64_eq,
      abs_of_nonneg hnonneg]
    simp only []
    split_ifs with hc
    · exact (min_eq_right (le_of_lt hc)).symm
    · exact (min_eq_left (not_lt.1 hc)).symm
  · rw [← hperm.countP_eq]
    exact hmed.1
  · rw [← hperm.countP_eq]
    exact hmed.2
  · rw [insertionSort_le_eq_reverse, hget]
    have hl : 29 < ((absDiffs l60).insertionSort (· ≥ ·)).reverse.length := by
      rw [List.length_reverse]; omega
    unfold idx
    rw [List.getD_eq_getElem _ _ hl, List.getElem_reverse]
    simp only [hslen]

/-- C16 on the timestamps collected from the fast chain. -/
theorem C16_witness :
    initialMedTime (differencesOf fastChain) =
      min (idx ((absDiffs (collect fastChain).last60BlockTimes).insertionSort (· ≥ ·)) 29)
        ((absDiffs (collect fastChain).last120BlockTimes).sum.tdiv 119) :=
  (C16_initialMedTime_is_min_median_average (collect fastChain).last60BlockTimes
    (collect fastChain).last120BlockTimes (length_last60BlockTimes fastChain)
    (length_last120BlockTimes fastChain)).2.2.1

/-- C17 fails on the skewed window: the newest timestamp and the one 5 places back
differ by exactly 600 seconds and `medTime` enters at 150, yet the scan, which
never reads the newest timestamp, leaves `medTime` at 150. -/
theorem C17_counterexample :
    skewedWindow.length = 60 ∧
    (0 + 5 ≤ 54 ∧ |idx skewedWindow 0 - idx skewedWindow (0 + 5)| = 600) ∧
    deadlockDefense skewedWindow 150 = some 150 := by
  decide

/-- C17, amended. With `t` the 60 collected timestamps (`t[0]` the tip's) and `medTime`
at least 120 on entry, the deadlock defence sets `medTime` to 119 if some pair
`t[j]`, `t[j + 5]` with `1 ≤ j ≤ 54` differs by exactly 600 and leaves it
unchanged otherwise; when `medTime` is below 120 on entry it is left unchanged. -/
theorem C17_deadlock_defense (t : List Int) (hlen : t.length = 60) (medTime : Int) :
    (120 ≤ medTime → (∃ j, 1 ≤ j ∧ j ≤ 54 ∧ |idx t (j + 5) - idx t j| = 600) →
      deadlockDefense t medTime = some 119) ∧
    (120 ≤ medTime → ¬ (∃ j, 1 ≤ j ∧ j ≤ 54 ∧ |idx t (j + 5) - idx t j| = 600) →
      deadlockDefense t medTime = some medTime) ∧
    (medTime < 120 → deadlockDefense t medTime = some medTime) :=
  deadlockDefense_eq t hlen medTime

/-- C17, amended, on the regular window, where every pair 5 apart differs by 600. -/
theorem C17_witness :
    regularWindow.length = 60 ∧ deadlockDefense regularWindow 150 = some 119 :=
  ⟨by decide,
    (C17_deadlock_defense regularWindow (by decide) 150).1 (by decide)
      ⟨1, by decide, by decide, by decide⟩⟩

/-- C18. Before the fork, off an adjustment boundary, with minimum-difficulty blocks
allowed and a candidate header at most two target spacings after the tip, on a
chain with linked heights: the walk follows `k ≤ N - 1` parent links to an entry
`B`, `GetNextWorkRequired` returns the bits of `B`, `B` has no parent or a
height that is a multiple of `N` or bits other than the compact standard limit,
and every entry nearer to the tip has none of these, so carries the compact
standard limit. -/
theorem C18_min_difficulty_walk (pindexLast : CBlockIndex) (pblock : CBlockHeader)
    (params : Params) (N : Int) (hI : params.DifficultyAdjustmentInterval = some N)
    (hN : 0 < N) (hpre : pindexLast.nHeight + 1 < params.goldcoinRBH)
    (hnot : ¬ N ∣ pindexLast.nHeight + 1)
    (hallow : params.fPowAllowMinDifficultyBlocks = true)
    (hprompt : pblock.GetBlockTime ≤ pindexLast.GetBlockTime + 2 * params.nPowTargetSpacing)
    (hlink : pindexLast.heightsLinked = true) :
    ∃ (k : Nat) (B : CBlockIndex), (k : Int) ≤ N - 1 ∧
      CBlockIndex.back k pindexLast = some B ∧
      GetNextWorkRequired pindexLast pblock params = some B.nBits ∧
      isRealTarget N (GetCompact (UintToArith256 params.powLimit)) B ∧
      ∀ j < k, ∀ Bj, CBlockIndex.back j pindexLast = some Bj →
        ¬ isRealTarget N (GetCompact (UintToArith256 params.powLimit)) Bj ∧
          Bj.nBits = GetCompact (UintToArith256 params.powLimit) := by
  obtain ⟨k, hk, hreal, hskip⟩ :=
    lastNonSpecial_spec N (GetCompact (UintToArith256 params.powLimit)) pindexLast
  refine ⟨k, _, ?_, hk, ?_, hreal, ?_⟩
  · -- within any `N` consecutive heights one is a multiple of `N`
    by_contra hc
    have hkN : N ≤ (k : Int) := by omega
    have hj0 : (pindexLast.nHeight % N).toNat < k := by
      have := Int.emod_lt_of_pos pindexLast.nHeight hN
      have := Int.emod_nonneg pindexLast.nHeight (ne_of_gt hN)
      omega
    obtain ⟨c, hcback⟩ := back_of_le pindexLast k _ (le_of_lt hj0) _ hk
    have hheight := nHeight_back_of_linked pindexLast hlink _ c hcback
    apply hskip _ hj0 c hcback
    refine Or.inr (Or.inl ?_)
    rw [hheight, Int.toNat_of_nonneg (Int.emod_nonneg _ (ne_of_gt hN))]
    exact Int.dvd_sub_of_emod_eq rfl
  · have hfork : ¬ pindexLast.nHeight + 1 ≥ params.goldcoinRBH := by omega
    have hmod : (pindexLast.nHeight + 1).tmod N ≠ 0 := fun hc =>
      hnot (Int.dvd_of_tmod_eq_zero hc)
    have hN0 : N ≠ 0 := by omega
    have htime : ¬ pblock.GetBlockTime >
        pindexLast.GetBlockTime + params.nPowTargetSpacing * 2 := by omega
    unfold GetNextWorkRequired
    simp [hfork, hI, hN0, hmod, hallow, htime]
  · intro j hj Bj hBj
    have hno := hskip j hj Bj hBj
    refine ⟨hno, ?_⟩
    by_contra hb
    exact hno (Or.inr (Or.inr hb))

/-- C18 on the testnet chain: three entries at the minimum-difficulty bits are skipped
and the bits of the entry at height 55 are returned. -/
theorem C18_witness :
    (¬ (60 : Int) ∣ testnetChain.nHeight + 1 ∧
      promptHeader.GetBlockTime ≤
        testnetChain.GetBlockTime + 2 * testnetParams.nPowTargetSpacing ∧
      testnetChain.heightsLinked = true) ∧
    GetNextWorkRequired testnetChain promptHeader testnetParams = some 0x1d0fffff ∧
    ∃ (k : Nat) (B : CBlockIndex), (k : Int) ≤ 60 - 1 ∧
      CBlockIndex.back k testnetChain = some B ∧
      GetNextWorkRequired testnetChain promptHeader testnetParams = some B.nBits :=
  ⟨by decide, by decide,
    (C18_min_difficulty_walk testnetChain promptHeader testnetParams 60 (by decide)
      (by decide) (by decide) (by decide) (by decide) (by decide) (by decide)).imp
      fun _ hk => hk.imp fun _ hB => ⟨hB.1, hB.2.1, hB.2.2.1⟩⟩

/-- C19. When `GoldenRiver` returns, the final `medTime` lies in 117 .. 122 or is 170,
it is 170 only after a half-adjust, the timespan `medTime * 60` lies in
7020 .. 7320 or is 10200, and the unconstrained new target is the decoded
previous target times that timespan (a 256-bit product, exact when it stays
below `2 ^ 256`) divided by 7200; the result is that target passed through the
floor, the history bounds and the limit. -/
theorem C19_final_medTime (pindexLast : CBlockIndex) (params : Params) (r : Nat)
    (h : GoldenRiver pindexLast params = some r) :
    ∃ medTime, finalMedTime pindexLast = some medTime ∧
      ((117 ≤ medTime ∧ medTime ≤ 122) ∨ medTime = 170) ∧
      (medTime = 170 → halfAdjust (differencesOf pindexLast) = true) ∧
      ((7020 ≤ medTime * 60 ∧ medTime * 60 ≤ 7320) ∨ medTime * 60 = 10200) ∧
      unconstrainedTarget pindexLast.nBits medTime =
        (SetCompact pindexLast.nBits).value * (medTime * 60).toNat % 2 ^ 256 / 7200 ∧
      ((SetCompact pindexLast.nBits).value * (medTime * 60).toNat < 2 ^ 256 →
        unconstrainedTarget pindexLast.nBits medTime =
          (SetCompact pindexLast.nBits).value * (medTime * 60).toNat / 7200) ∧
      r = boundedTarget
        (flooredTarget pindexLast.nBits medTime (halfAdjust (differencesOf pindexLast)))
        (blockAgo 60 pindexLast).nBits (blockAgo 240 pindexLast).nBits
        (UintToArith256 params.powScryptLimit) := by
  obtain ⟨m, hm, hr⟩ := GoldenRiver_eq_some pindexLast params r h
  have hrange := bandedMedTime_range (averageTime (differencesOf pindexLast)) m
    (halfAdjust (differencesOf pindexLast))
  generalize hM : bandedMedTime (averageTime (differencesOf pindexLast)) m
    (halfAdjust (differencesOf pindexLast)) = M at hrange hr
  have hfinal : finalMedTime pindexLast = some M := by
    unfold finalMedTime medTimeAfterDefense
    rw [hm]
    show some (bandedMedTime _ _ _) = _
    rw [hM]
  have hu : toUint32 (M * 60) = (M * 60).toNat :=
    toUint32_of_nonneg _ (by omega) (by omega)
  have hunc : unconstrainedTarget pindexLast.nBits M =
      (SetCompact pindexLast.nBits).value * (M * 60).toNat % 2 ^ 256 / 7200 := by
    unfold unconstrainedTarget mul256
    rw [hu]
  refine ⟨M, hfinal, hrange.1, hrange.2, by omega, hunc, ?_, ?_⟩
  · intro hlt
    rw [hunc, Nat.mod_eq_of_lt hlt]
  · rw [hr, retarget_eq, nbits60ago_eq, nbits240ago_eq]

/-- C19 on the fast chain, whose final `medTime` is 117. -/
theorem C19_witness :
    ∃ medTime, finalMedTime fastChain = some medTime ∧
      ((117 ≤ medTime ∧ medTime ≤ 122) ∨ medTime = 170) :=
  (C19_final_medTime fastChain sampleParams 504344494 GoldenRiver_fastChain).imp
    fun _ hm => ⟨hm.1, hm.2.1⟩

/-- C20. When `GetNextWorkRequired` reaches `GoldenRiver` with a fork height that is
not negative, on a well-formed chain: the tip is at height 240 or more; every
walk of up to 240 parent links finds an entry (so `pindexFirst` is not null) at
the expected height; each of the 240 steps of the collection loop finds a
parent; `nbits60ago` and `nbits240ago` are the bits of the entries exactly 60
and 240 back; the timestamp vectors have 60 and 120 entries, the difference
vectors 59 and 119; every index read is in range; and `GoldenRiver` returns the
value that `GetNextWorkRequired` returns. -/
theorem C20_GoldenRiver_cannot_abort (pindexLast : CBlockIndex) (pblock : CBlockHeader)
    (params : Params) (hw : pindexLast.wellFormed = true) (hfork : 0 ≤ params.goldcoinRBH)
    (hreach : params.goldcoinRBH + 240 < pindexLast.nHeight + 1) :
    240 ≤ pindexLast.nHeight ∧
    (∀ k ≤ 240, ∃ a, walkFirst k pindexLast = some a ∧ blockAgo k pindexLast = a ∧
      a.nHeight = pindexLast.nHeight - k) ∧
    (∀ k < 240, ∃ a, (blockAgo k pindexLast).pprev = some a) ∧
    (∃ b60 b240, CBlockIndex.back 60 pindexLast = some b60 ∧
      CBlockIndex.back 240 pindexLast = some b240 ∧
      (collect pindexLast).nbits60ago = b60.nBits ∧
      (collect pindexLast).nbits240ago = b240.nBits) ∧
    ((collect pindexLast).last60BlockTimes.length = 60 ∧
      (collect pindexLast).last120BlockTimes.length = 120 ∧
      (differencesOf pindexLast).last59TimeDifferences.length = 59 ∧
      (differencesOf pindexLast).last119TimeDifferences.length = 119) ∧
    ((∀ xy < 119, xy + 1 < (collect pindexLast).last120BlockTimes.length) ∧
      (∀ xy < 59, xy + 1 < (collect pindexLast).last60BlockTimes.length) ∧
      29 < (sortedDifferences (differencesOf pindexLast)).length ∧
      ∀ index, 1 ≤ index → index ≤ 54 →
        ∃ x y,
          vectorAt (collect pindexLast).last60BlockTimes
            (((collect pindexLast).last60BlockTimes.length : Int) - (index : Nat)) = some x ∧
          vectorAt (collect pindexLast).last60BlockTimes
            (((collect pindexLast).last60BlockTimes.length : Int) - ((index : Nat) + 5))
              = some y) ∧
    ∃ r, GoldenRiver pindexLast params = some r ∧
      GetNextWorkRequired pindexLast pblock params = some r := by
  have hH : 240 ≤ pindexLast.nHeight := by omega
  have hback : ∀ k ≤ 240, ∃ a, CBlockIndex.back k pindexLast = some a ∧
      a.nHeight = pindexLast.nHeight - k := fun k hk =>
    back_of_wellFormed pindexLast hw k (by omega)
  have hwalk : ∀ k ≤ 240, ∃ a, walkFirst k pindexLast = some a ∧ blockAgo k pindexLast = a ∧
      a.nHeight = pindexLast.nHeight - k := by
    intro k hk
    obtain ⟨a, ha, hh⟩ := hback k hk
    exact ⟨a, by rw [walkFirst_eq_back, ha], blockAgo_of_back k _ _ ha, hh⟩
  have h60 := length_last60BlockTimes pindexLast
  have h120 := length_last120BlockTimes pindexLast
  have h59 : (differencesOf pindexLast).last59TimeDifferences.length = 59 := by
    unfold differencesOf
    rw [last59TimeDifferences_eq]; simp
  have h119 : (differencesOf pindexLast).last119TimeDifferences.length = 119 := by
    unfold differencesOf
    rw [last119TimeDifferences_eq]; simp
  refine ⟨hH, hwalk, ?_, ?_, ⟨h60, h120, h59, h119⟩, ⟨?_, ?_, ?_, ?_⟩, ?_⟩
  · intro k hk
    obtain ⟨a, ha, -⟩ := hback (k + 1) (by omega)
    obtain ⟨c, hc, hp⟩ := back_succ k _ _ ha
    exact ⟨a, by rw [blockAgo_of_back k _ _ hc, hp]⟩
  · obtain ⟨b60, hb60, -⟩ := hback 60 (by norm_num)
    obtain ⟨b240, hb240, -⟩ := hback 240 (by norm_num)
    refine ⟨b60, b240, hb60, hb240, ?_, ?_⟩
    · rw [nbits60ago_eq, blockAgo_of_back 60 _ _ hb60]
    · rw [nbits240ago_eq, blockAgo_of_back 240 _ _ hb240]
  · intro xy hxy; omega
  · intro xy hxy; omega
  · unfold sortedDifferences
    rw [List.length_insertionSort, h59]
    norm_num
  · intro index h1 h2
    have e1 : ((collect pindexLast).last60BlockTimes.length : Int) - (index : Nat) =
        ((60 - index : Nat) : Int) := by rw [h60]; omega
    have e2 : ((collect pindexLast).last60BlockTimes.length : Int) - ((index : Nat) + 5) =
        ((55 - index : Nat) : Int) := by rw [h60]; omega
    rw [e1, e2]
    exact ⟨_, _, vectorAt_of_lt _ _ (by omega), vectorAt_of_lt _ _ (by omega)⟩
  · obtain ⟨r, hr⟩ := GoldenRiver_returns pindexLast params (fun k hk => by
      obtain ⟨a, ha, -⟩ := hwalk k (by omega)
      exact ⟨a, ha⟩)
    refine ⟨r, hr, ?_⟩
    have h1 : pindexLast.nHeight + 1 ≥ params.goldcoinRBH := by omega
    have h2 : ¬ pindexLast.nHeight + 1 ≤ params.goldcoinRBH + 240 := by omega
    unfold GetNextWorkRequired
    simp [h1, h2, hr]

/-- C20 on the fast chain, whose tip is at height 240, with the fork at height 0. -/
theorem C20_witness :
    (fastChain.wellFormed = true ∧ 0 ≤ sampleParams.goldcoinRBH ∧
      sampleParams.goldcoinRBH + 240 < fastChain.nHeight + 1) ∧
    240 ≤ fastChain.nHeight ∧
    ∃ r, GoldenRiver fastChain sampleParams = some r ∧
      GetNextWorkRequired fastChain sampleHeader sampleParams = some r :=
  ⟨by decide,
    (C20_GoldenRiver_cannot_abort fastChain sampleHeader sampleParams (by decide) (by decide)
      (by decide)).1,
    (C20_GoldenRiver_cannot_abort fastChain sampleHeader sampleParams (by decide) (by decide)
      (by decide)).2.2.2.2.2.2⟩

end Goldcoin
